import Mathlib

/-!
# Verification of the local knowledge-storage adapters

A shallow embedding, in Lean 4, of the embedded ("local") realizations of the
three storage engines of this repository:

* `src/adapters/local/vector_store.py` (`LocalVectorStore`, in-memory mode),
* `src/adapters/local/graph_store.py`  (`LocalGraphStore`, NetworkX mode),
* `src/adapters/local/memory_store.py` (`LocalMemoryStore`, in-memory mode),

together with proofs about the behaviour the specification ascribes to them.

Modelling conventions:

* Python `dict`s (which preserve insertion order, and keep the original
  position of a key when an existing key is assigned) are modelled as
  association lists with an in-place `upsertA` operation.
* Python floats are modelled as exact rationals (`ℚ`); the real-valued cosine
  score `dot(q,v) / (‖q‖·‖v‖)` is expressed over `ℝ` with `Real.sqrt`, and the
  comparison performed by `list.sort(key=score)` is implemented by a decidable
  comparator `leB` that is proved equivalent to comparing the real scores.
* `uuid.uuid4()` is modelled by a per-store counter producing fresh
  identifiers; nothing proved below depends on the shape of the fresh names.
* Raised `ValueError`s are modelled with `Except String`; functions that the
  Python code lets return normally are total in the embedding (wrapped in
  `Except.ok` where a uniform signature is needed).
* `datetime` values are modelled as their ISO-format strings (the in-memory
  store itself stores and compares `isoformat()` strings).
-/

/-! ## Association lists (the model of Python `dict`) -/

/-- Lookup in an association list: the value of the first matching key
(Python `d[k]` / `d.get(k)`). -/
def lookupA {κ ν : Type} [DecidableEq κ] : List (κ × ν) → κ → Option ν
  | [], _ => none
  | (k, v) :: rest, key => if k = key then some v else lookupA rest key

/-- Insert-or-overwrite (Python `d[k] = v`): an existing key keeps its
position, a new key is appended at the end, matching `dict` insertion
order. -/
def upsertA {κ ν : Type} [DecidableEq κ] : List (κ × ν) → κ → ν → List (κ × ν)
  | [], key, val => [(key, val)]
  | (k, v) :: rest, key, val =>
      if k = key then (key, val) :: rest else (k, v) :: upsertA rest key val

/-- Key membership (Python `k in d`). -/
def containsA {κ ν : Type} [DecidableEq κ] (l : List (κ × ν)) (key : κ) : Bool :=
  l.any (fun p => p.1 = key)

/-- Key removal (Python `del d[k]`). -/
def eraseA {κ ν : Type} [DecidableEq κ] (l : List (κ × ν)) (key : κ) : List (κ × ν) :=
  l.filter (fun p => !(p.1 = key : Bool))

/-- The keys of an association list, in order. -/
def keysA {κ ν : Type} (l : List (κ × ν)) : List κ :=
  l.map (·.1)

/-! ## The vector store (`LocalVectorStore`, in-memory mode)

State and operations translated from `src/adapters/local/vector_store.py`.
-/

/-- Model of `VectorRecord` from `src/interfaces`: key, vector, metadata, optional
namespace.  Metadata values are modelled as opaque strings (the code only
ever compares them for equality).  The `namespace` field is called `nspace`
because `namespace` is a Lean keyword. -/
structure VectorRecord where
  key : String
  vector : List ℚ
  metadata : List (String × String)
  nspace : Option String
deriving DecidableEq, Repr

/-- One entry of `LocalVectorStore._indices`:
`{"dimension": int, "metric": str, "vectors": {key: VectorRecord}}`. -/
structure IndexData where
  dimension : Nat
  metric : String
  vectors : List (String × VectorRecord)
deriving DecidableEq, Repr

/-- The in-memory state of a `LocalVectorStore`; `nextId` drives the model of
`uuid.uuid4()`. -/
structure VStore where
  indices : List (String × IndexData)
  nextId : Nat
deriving DecidableEq, Repr

/-- A store as built by `LocalVectorStore.__init__` with no persist dir. -/
def VStore.empty : VStore := ⟨[], 0⟩

/-- The model of `str(uuid.uuid4())`: a fresh key from the counter. -/
def uuidKey (n : Nat) : String := "uuid-" ++ toString n

/-- The message of the `ValueError(f"Index '{index_name}' not found")`
raised by the vector-store operations. -/
def idxNotFound (name : String) : String :=
  "Index '" ++ name ++ "' not found"

/-- Model of `LocalVectorStore.create_index`: an existing name is left unchanged
(with a warning) and returned; otherwise the index is created empty. -/
def createIndex (s : VStore) (name : String) (dim : Nat) (metric : String) :
    VStore × String :=
  if containsA s.indices name then (s, name)
  else ({ s with indices := upsertA s.indices name ⟨dim, metric, []⟩ }, name)

/-- Model of `LocalVectorStore.delete_index`: returns `False` when the index does not
exist, else removes it and returns `True`.  The `Except` wrapper records
that this method raises nothing. -/
def deleteIndex (s : VStore) (name : String) : Except String (VStore × Bool) :=
  if !(containsA s.indices name) then .ok (s, false)
  else .ok ({ s with indices := eraseA s.indices name }, true)

/-- The record stored by `put_vectors` for an input record under key `k`. -/
def storedRecord (k : String) (r : VectorRecord) : VectorRecord :=
  ⟨k, r.vector, r.metadata, r.nspace⟩

/-- The `for vec in vectors` loop of `LocalVectorStore.put_vectors`: a record
whose vector length differs from the index dimension is skipped (the loop
continues), otherwise it is upserted under its key — or under a fresh uuid
key when its key is the empty (falsy) string — and the counter of inserted
records is incremented.  Returns (vectors, next uuid counter, count). -/
def putLoop (dim : Nat) :
    List VectorRecord → List (String × VectorRecord) → Nat → Nat →
      List (String × VectorRecord) × Nat × Nat
  | [], vecs, n, cnt => (vecs, n, cnt)
  | r :: rs, vecs, n, cnt =>
    if r.vector.length ≠ dim then
      putLoop dim rs vecs n cnt
    else if r.key = "" then
      putLoop dim rs (upsertA vecs (uuidKey n) (storedRecord (uuidKey n) r)) (n + 1) (cnt + 1)
    else
      putLoop dim rs (upsertA vecs r.key (storedRecord r.key r)) n (cnt + 1)

/-- Model of `LocalVectorStore.put_vectors`: raises on an unknown index, otherwise
upserts the dimension-correct records and returns the inserted count. -/
def putVectors (s : VStore) (name : String) (recs : List VectorRecord) :
    Except String (VStore × Nat) :=
  match lookupA s.indices name with
  | none => .error (idxNotFound name)
  | some idx =>
    let out := putLoop idx.dimension recs idx.vectors s.nextId 0
    .ok (⟨upsertA s.indices name { idx with vectors := out.1 }, out.2.1⟩, out.2.2)

/-- Model of `LocalVectorStore._match_filter`: exact-match conjunction over the
filter's keys; a missing key or a differing value rejects the record. -/
def matchFilter (metadata fil : List (String × String)) : Bool :=
  fil.all (fun p =>
    match lookupA metadata p.1 with
    | some v => v = p.2
    | none => false)

/-- The `if filter:` guard of `query_vectors`: `None` (and the falsy empty
dict, for which `matchFilter` is vacuously true anyway) means no
filtering. -/
def matchFilterOpt (fil : Option (List (String × String)))
    (metadata : List (String × String)) : Bool :=
  match fil with
  | none => true
  | some f => matchFilter metadata f

/-- The sum of squares of a vector; `np.linalg.norm(v)` is its square root,
so `norm(v) == 0` iff `sumSq v = 0`. -/
def sumSq (v : List ℚ) : ℚ := (v.map (fun x => x * x)).sum

/-- Model of `np.dot` on equal-length 1-D arrays. -/
def dotQ (a b : List ℚ) : ℚ := (List.zipWith (· * ·) a b).sum

/-- One candidate built by the scoring loop of `query_vectors`: the position
`idx` of the stored vector in insertion order, its key, vector and metadata.
The float `score` of the Python `SearchResult` is determined by `qv` and
`vec` and is expressed by `realScore` below. -/
structure Scored where
  idx : Nat
  key : String
  vec : List ℚ
  metadata : List (String × String)
deriving DecidableEq, Repr

/-- The loop body of `query_vectors` applied to all stored vectors in
insertion order: keep a vector when the metadata filter accepts it and its
norm is nonzero. -/
def candidatesOf (idx : IndexData) (fil : Option (List (String × String))) :
    List Scored :=
  idx.vectors.enum.filterMap (fun p =>
    if matchFilterOpt fil p.2.2.metadata = true ∧ sumSq p.2.2.vector ≠ 0 then
      some ⟨p.1, p.2.1, p.2.2.vector, p.2.2.metadata⟩
    else none)

/-- Decidable comparison of the cosine scores of two candidates against one
query vector: `leB qv a b` decides `score a ≤ score b` without leaving `ℚ`,
by case analysis on signs and squaring.  Candidates with zero norm (which
the scoring loop has already excluded) are given score `0`, matching the
junk value `x / 0 = 0` of real division, so that the comparator is total
and transitive on all of `Scored`.  `scoreLe_iff` below proves it equal to
the comparison of the real scores. -/
def leB (qv : List ℚ) (a b : Scored) : Bool :=
  let da := dotQ qv a.vec
  let db := dotQ qv b.vec
  let sa := sumSq a.vec
  let sb := sumSq b.vec
  if sa = 0 then (if sb = 0 then true else decide (0 ≤ db))
  else if sb = 0 then decide (da ≤ 0)
  else if 0 < da then (if 0 < db then decide (da ^ 2 * sb ≤ db ^ 2 * sa) else false)
  else if 0 ≤ db then true
  else decide (db ^ 2 * sa ≤ da ^ 2 * sb)

/-- The ordering used to model `results.sort(key=lambda x: x.score,
reverse=True)`: `a` may come before `b` iff `b`'s score is at most `a`'s.
Python's sort is stable, and `List.insertionSort` with this reflexive
descending relation is exactly a stable descending sort. -/
def Rge (qv : List ℚ) (a b : Scored) : Prop := leB qv b a = true

instance (qv : List ℚ) : DecidableRel (Rge qv) := fun a b =>
  inferInstanceAs (Decidable (leB qv b a = true))

/-- Model of `LocalVectorStore.query_vectors`: raises on an unknown index; returns
`[]` for an empty index or a zero-norm query; otherwise filters, scores,
stable-sorts by descending score and truncates to `top_k`. -/
def queryVectors (s : VStore) (name : String) (qv : List ℚ) (topK : Nat)
    (fil : Option (List (String × String))) : Except String (List Scored) :=
  match lookupA s.indices name with
  | none => .error (idxNotFound name)
  | some idx =>
    if idx.vectors.isEmpty then .ok []
    else if sumSq qv = 0 then .ok []
    else .ok (((candidatesOf idx fil).insertionSort (Rge qv)).take topK)

/-- The `for key in keys` loop of `delete_vectors`: a present key is removed
and counted, a missing key is ignored. -/
def delLoop : List String → List (String × VectorRecord) → Nat →
    List (String × VectorRecord) × Nat
  | [], vecs, cnt => (vecs, cnt)
  | k :: ks, vecs, cnt =>
    if containsA vecs k then delLoop ks (eraseA vecs k) (cnt + 1)
    else delLoop ks vecs cnt

/-- Model of `LocalVectorStore.delete_vectors`: raises on an unknown index, else
deletes the present keys and returns the number removed. -/
def deleteVectors (s : VStore) (name : String) (keys : List String) :
    Except String (VStore × Nat) :=
  match lookupA s.indices name with
  | none => .error (idxNotFound name)
  | some idx =>
    let out := delLoop keys idx.vectors 0
    .ok (⟨upsertA s.indices name { idx with vectors := out.1 }, s.nextId⟩, out.2)

/-- Model of `LocalVectorStore.get_vector`: raises on an unknown index, else returns
the record at the key, or `None`. -/
def getVector (s : VStore) (name : String) (key : String) :
    Except String (Option VectorRecord) :=
  match lookupA s.indices name with
  | none => .error (idxNotFound name)
  | some idx => .ok (lookupA idx.vectors key)

/-! ### Persistence (`_persist_to_disk` / `_load_from_disk`)

The persist directory is modelled as an association list from index name to
the serialized index (the file `{name}.json`; `Path.stem` inverts the file
naming, so files are keyed by index name directly).  JSON (de)serialization
of the payload `{dimension, metric, vectors: {key → {key, vector, metadata,
namespace}}}` is modelled structurally. -/

/-- The per-vector JSON object written by `_persist_to_disk`. -/
structure SerRecord where
  key : String
  vector : List ℚ
  metadata : List (String × String)
  nspace : Option String
deriving DecidableEq, Repr

/-- The JSON payload of one index file:
`{dimension, metric, vectors: {key → serialized record}}`. -/
structure SerIndex where
  dimension : Nat
  metric : String
  vectors : List (String × SerRecord)
deriving DecidableEq, Repr

/-- The contents of the persist directory: one file per index name. -/
abbrev Disk : Type := List (String × SerIndex)

/-- Serialization of one index performed by `_persist_to_disk`. -/
def serializeIndex (d : IndexData) : SerIndex :=
  ⟨d.dimension, d.metric,
    d.vectors.map (fun p => (p.1, ⟨p.2.key, p.2.vector, p.2.metadata, p.2.nspace⟩))⟩

/-- Deserialization of one index file performed by `_load_from_disk`. -/
def deserializeIndex (d : SerIndex) : IndexData :=
  ⟨d.dimension, d.metric,
    d.vectors.map (fun p => (p.1, ⟨p.2.key, p.2.vector, p.2.metadata, p.2.nspace⟩))⟩

/-- Model of `LocalVectorStore._persist_to_disk`: writes (insert-or-overwrite) one
file per index currently in the store.  Files of indices no longer in the
store are left untouched. -/
def persistToDisk (disk : Disk) (s : VStore) : Disk :=
  s.indices.foldl (fun d p => upsertA d p.1 (serializeIndex p.2)) disk

/-- Model of `LocalVectorStore._load_from_disk` on a fresh store: every `*.json` file
of the directory becomes an index. -/
def loadFromDisk (disk : Disk) : VStore :=
  ⟨disk.map (fun p => (p.1, deserializeIndex p.2)), 0⟩

/-- A vector store together with its persist directory. -/
structure DiskVStore where
  store : VStore
  disk : Disk
deriving DecidableEq

/-- Model of `create_index` on a store with a persist dir: the method persists after
mutating, but returns early (without persisting) when the name exists. -/
def createIndexD (ds : DiskVStore) (name : String) (dim : Nat) (metric : String) :
    DiskVStore × String :=
  let out := createIndex ds.store name dim metric
  if containsA ds.store.indices name then (⟨out.1, ds.disk⟩, out.2)
  else (⟨out.1, persistToDisk ds.disk out.1⟩, out.2)

/-- Model of `delete_index` on a store with a persist dir: persists after a
successful deletion, returns early on a missing index. -/
def deleteIndexD (ds : DiskVStore) (name : String) : DiskVStore × Bool :=
  match deleteIndex ds.store name with
  | .ok (s', true) => (⟨s', persistToDisk ds.disk s'⟩, true)
  | _ => (ds, false)

/-- Model of `put_vectors` on a store with a persist dir: persists after the loop
(the unknown-index error propagates before any mutation). -/
def putVectorsD (ds : DiskVStore) (name : String) (recs : List VectorRecord) :
    Except String (DiskVStore × Nat) :=
  match putVectors ds.store name recs with
  | .error e => .error e
  | .ok (s', cnt) => .ok (⟨s', persistToDisk ds.disk s'⟩, cnt)

/-- Model of `delete_vectors` on a store with a persist dir. -/
def deleteVectorsD (ds : DiskVStore) (name : String) (keys : List String) :
    Except String (DiskVStore × Nat) :=
  match deleteVectors ds.store name keys with
  | .error e => .error e
  | .ok (s', cnt) => .ok (⟨s', persistToDisk ds.disk s'⟩, cnt)

/-! ## The graph store (`LocalGraphStore`, NetworkX mode)

State and operations translated from `src/adapters/local/graph_store.py`.
A `networkx.DiGraph` keeps node and edge attribute dicts; it holds at most
one edge per ordered `(source, target)` pair, and `add_edge` silently adds
missing endpoint nodes with an empty attribute dict.  The wall-clock
`created_at` / `updated_at` attributes, which no accessor ever returns, are
omitted from the model. -/

/-- The attribute dict set by `_create_node_networkx` (`node_type`,
`properties`, `embedding`).  A node created implicitly by `add_edge` has an
empty attribute dict, modelled as `none` in the node list. -/
structure NodeAttrs where
  nodeType : String
  properties : List (String × String)
  embedding : Option (List ℚ)
deriving DecidableEq, Repr

/-- The attribute dict set by `_create_edge_networkx` (`edge_id`,
`edge_type`, `properties`, `valid_from`, `valid_to`; the `datetime`s are
stored as their ISO strings). -/
structure EdgeAttrs where
  edgeId : String
  edgeType : String
  properties : List (String × String)
  validFrom : Option String
  validTo : Option String
deriving DecidableEq, Repr

/-- Model of `GraphNode` of `src/interfaces`, as rebuilt by `_get_node_networkx`. -/
structure GraphNode where
  nodeId : String
  nodeType : String
  properties : List (String × String)
  embedding : Option (List ℚ)
deriving DecidableEq, Repr

/-- Model of `GraphEdge` of `src/interfaces`, as rebuilt by
`_edge_data_to_graph_edge`. -/
structure GraphEdge where
  edgeId : String
  sourceId : String
  targetId : String
  edgeType : String
  properties : List (String × String)
  validFrom : Option String
  validTo : Option String
deriving DecidableEq, Repr

/-- The `networkx.DiGraph` held by `LocalGraphStore`: nodes in insertion
order with their attribute dict (`none` = implicitly created, empty dict),
and at most one attributed edge per ordered pair.  `nextId` models
`uuid.uuid4()` for absent ids. -/
structure NXGraph where
  nodes : List (String × Option NodeAttrs)
  edges : List ((String × String) × EdgeAttrs)
  nextId : Nat
deriving DecidableEq, Repr

/-- The empty graph of `_init_networkx`. -/
def NXGraph.empty : NXGraph := ⟨[], [], 0⟩

/-- Model of `DiGraph.add_node` semantics within `ensureNode`: make the endpoint
exist, without touching an existing node's attributes (`add_edge` only adds
missing endpoints). -/
def ensureNode (nodes : List (String × Option NodeAttrs)) (id : String) :
    List (String × Option NodeAttrs) :=
  if containsA nodes id then nodes else nodes ++ [(id, none)]

/-- Model of `LocalGraphStore.create_node` (NetworkX mode): `add_node` with the full
attribute set; an existing node of the same id is overwritten in place, the
id is generated when absent (falsy). -/
def createNode (g : NXGraph) (node : GraphNode) : NXGraph × String :=
  let id := if node.nodeId = "" then uuidKey g.nextId else node.nodeId
  let n' := if node.nodeId = "" then g.nextId + 1 else g.nextId
  (⟨upsertA g.nodes id (some ⟨node.nodeType, node.properties, node.embedding⟩),
    g.edges, n'⟩, id)

/-- Model of `LocalGraphStore.get_node` (NetworkX mode): `None` for an absent id;
an implicitly created node yields the `data.get` defaults (empty type,
empty properties, no embedding). -/
def getNode (g : NXGraph) (id : String) : Option GraphNode :=
  match lookupA g.nodes id with
  | none => none
  | some attrs =>
    some ⟨id, (attrs.map (·.nodeType)).getD "", (attrs.map (·.properties)).getD [],
      attrs.bind (·.embedding)⟩

/-- Model of `LocalGraphStore.delete_node` (NetworkX mode): `False` for an absent
id; otherwise `DiGraph.remove_node`, which removes the node and every edge
having it as source or target. -/
def deleteNode (g : NXGraph) (id : String) : NXGraph × Bool :=
  if !(containsA g.nodes id) then (g, false)
  else
    (⟨g.nodes.filter (fun p => !(p.1 = id : Bool)),
      g.edges.filter (fun p => !(p.1.1 = id : Bool) && !(p.1.2 = id : Bool)),
      g.nextId⟩, true)

/-- Model of `LocalGraphStore.create_edge` (NetworkX mode): `DiGraph.add_edge` —
missing endpoints are silently added with empty attributes, and the single
edge slot for the ordered pair is created or overwritten with the new
attribute set.  The edge id is generated when absent (falsy). -/
def createEdge (g : NXGraph) (e : GraphEdge) : NXGraph × String :=
  let eid := if e.edgeId = "" then uuidKey g.nextId else e.edgeId
  let n' := if e.edgeId = "" then g.nextId + 1 else g.nextId
  (⟨ensureNode (ensureNode g.nodes e.sourceId) e.targetId,
    upsertA g.edges (e.sourceId, e.targetId)
      ⟨eid, e.edgeType, e.properties, e.validFrom, e.validTo⟩,
    n'⟩, eid)

/-- The `if edge_type and ...` guard of `_get_edges_networkx`: a falsy
`edge_type` (absent or empty) disables the type filter. -/
def edgeTypeOk (etype : Option String) (data : EdgeAttrs) : Bool :=
  match etype with
  | none => true
  | some t => (t = "") || (data.edgeType = t)

/-- Model of `LocalGraphStore.get_edges` (NetworkX mode): out-edges of the node (for
direction `out`/`both`) then in-edges (for `in`/`both`), each restricted by
the optional edge type and rebuilt as `GraphEdge`s. -/
def getEdges (g : NXGraph) (id : String) (direction : String)
    (etype : Option String) : List GraphEdge :=
  let outs :=
    if direction = "out" || direction = "both" then
      (g.edges.filter (fun p => (p.1.1 = id : Bool) && edgeTypeOk etype p.2)).map
        (fun p => ⟨p.2.edgeId, p.1.1, p.1.2, p.2.edgeType, p.2.properties,
          p.2.validFrom, p.2.validTo⟩)
    else []
  let ins :=
    if direction = "in" || direction = "both" then
      (g.edges.filter (fun p => (p.1.2 = id : Bool) && edgeTypeOk etype p.2)).map
        (fun p => ⟨p.2.edgeId, p.1.1, p.1.2, p.2.edgeType, p.2.properties,
          p.2.validFrom, p.2.validTo⟩)
    else []
  outs ++ ins

/-- Model of `LocalGraphStore.delete_edge` (NetworkX mode): removes the first edge
whose `edge_id` attribute matches, returning whether one was found. -/
def deleteEdge (g : NXGraph) (eid : String) :
    NXGraph × Bool :=
  match g.edges.find? (fun p => p.2.edgeId = eid) with
  | none => (g, false)
  | some p =>
    (⟨g.nodes, g.edges.filter (fun q => !(q.1 = p.1 : Bool)), g.nextId⟩, true)

/-! ## The memory store (`LocalMemoryStore`, in-memory mode)

State and operations translated from `src/adapters/local/memory_store.py`.
Timestamps are the `isoformat()` strings the store itself keeps and
compares. -/

/-- Model of `MemoryEvent` of `src/interfaces`. -/
structure MemEvent where
  actorId : String
  sessionId : String
  role : String
  content : String
  timestamp : String
  metadata : List (String × String)
deriving DecidableEq, Repr

/-- The `event_data` dict appended to `self._events` by `create_event`. -/
structure StoredEvent where
  id : Nat
  actorId : String
  sessionId : String
  role : String
  content : String
  timestamp : String
  metadata : List (String × String)
deriving DecidableEq, Repr

/-- Model of `MemoryRecord` of `src/interfaces` (the embedding is never set by this
store and is omitted). -/
structure MemRecord where
  recordId : Nat
  content : String
  memoryType : String
  timestamp : String
  score : ℚ
  metadata : List (String × String)
deriving DecidableEq, Repr

/-- The in-memory state of a `LocalMemoryStore`: the global event list, the
per-actor record lists, and the uuid counter. -/
structure MemStore where
  events : List StoredEvent
  records : List (String × List MemRecord)
  nextId : Nat
deriving DecidableEq, Repr

/-- A store as built by `LocalMemoryStore.__init__` in memory mode. -/
def MemStore.empty : MemStore := ⟨[], [], 0⟩

/-- A Python dict literal `{k₁: v₁, ..., **extra}`: the explicit pairs in
order, then the pairs of `extra` upserted over them. -/
def dictSpread (base extra : List (String × String)) : List (String × String) :=
  extra.foldl (fun m p => upsertA m p.1 p.2) base

/-- The metadata of a promoted semantic record:
`{"source": "event", "session_id": event.session_id, **event.metadata}`. -/
def promoMeta (e : MemEvent) : List (String × String) :=
  dictSpread [("source", "event"), ("session_id", e.sessionId)] e.metadata

/-- The `MemoryRecord` built by `_maybe_promote_to_semantic` for an event
that crosses the length threshold, with fresh record id `rid`. -/
def promoRecord (rid : Nat) (e : MemEvent) : MemRecord :=
  ⟨rid, e.content, "semantic", e.timestamp, 1 / 2, promoMeta e⟩

/-- Model of `_save_record` in memory mode: append to the actor's record list,
creating it when absent. -/
def saveRecord (records : List (String × List MemRecord)) (actor : String)
    (r : MemRecord) : List (String × List MemRecord) :=
  upsertA records actor ((lookupA records actor).getD [] ++ [r])

/-- One iteration of the `for event in events` loop of `create_event` in
memory mode: append the event (with a fresh uuid), then
`_maybe_promote_to_semantic` — promotion happens iff `len(content) > 100`,
storing a semantic record (with its own fresh uuid) for the event's
actor. -/
def createEventStep (s : MemStore) (e : MemEvent) : MemStore × Nat :=
  let eid := s.nextId
  let events' := s.events ++ [⟨eid, e.actorId, e.sessionId, e.role, e.content,
    e.timestamp, e.metadata⟩]
  if e.content.length > 100 then
    (⟨events', saveRecord s.records e.actorId (promoRecord (eid + 1) e),
      eid + 2⟩, eid)
  else
    (⟨events', s.records, eid + 1⟩, eid)

/-- Model of `LocalMemoryStore.create_event` in memory mode: process the events in
order, collecting the generated event ids (Python joins them with
commas). -/
def createEvent : MemStore → List MemEvent → MemStore × List Nat
  | s, [] => (s, [])
  | s, e :: es =>
    let out := createEventStep s e
    let rest := createEvent out.1 es
    (rest.1, out.2 :: rest.2)

/-- The stored events produced by one `create_event` call starting from
uuid counter `n`: each event is appended with a fresh id, and a promoted
event consumes a second fresh id for its semantic record. -/
def eventsFromCounter (n : Nat) : List MemEvent → List StoredEvent
  | [] => []
  | e :: es =>
    ⟨n, e.actorId, e.sessionId, e.role, e.content, e.timestamp, e.metadata⟩ ::
      eventsFromCounter (if e.content.length > 100 then n + 2 else n + 1) es

/-- Rebuilding a `MemoryEvent` from a stored event dict, as
`_get_session_memory` does (`fromisoformat` inverts `isoformat`). -/
def toMemEvent (e : StoredEvent) : MemEvent :=
  ⟨e.actorId, e.sessionId, e.role, e.content, e.timestamp, e.metadata⟩

/-- Python's `str` less-than on two character lists: lexicographic by code
point. -/
def strLtList : List Char → List Char → Bool
  | [], [] => false
  | [], _ :: _ => true
  | _ :: _, [] => false
  | a :: as, b :: bs =>
    if a.val < b.val then true
    else if b.val < a.val then false
    else strLtList as bs

/-- Python's `str` less-or-equal, as used to compare ISO timestamps. -/
def strLe (a b : String) : Bool := !(strLtList b.data a.data)

/-- The ascending-timestamp ordering of
`events.sort(key=lambda x: x["timestamp"])`; Python compares the ISO
strings lexicographically, and the sort is stable. -/
def tsLe (a b : StoredEvent) : Prop := strLe a.timestamp b.timestamp = true

instance : DecidableRel tsLe := fun a b =>
  inferInstanceAs (Decidable (strLe a.timestamp b.timestamp = true))

/-- Model of `LocalMemoryStore._get_session_memory`: filter the global log to the
(actor, session) pair, stable-sort by timestamp, and keep the Python slice
`events[-limit:]` — the last `limit` entries, or (for the slice `[-0:]`)
everything when `limit = 0`. -/
def getSessionHistory (s : MemStore) (actor session : String) (limit : Nat) :
    List MemEvent :=
  let evs := s.events.filter (fun e =>
    (e.actorId = actor : Bool) && (e.sessionId = session : Bool))
  let sorted := evs.insertionSort tsLe
  let sliced := if limit = 0 then sorted else sorted.drop (sorted.length - limit)
  sliced.map toMemEvent

/-- Model of `LocalMemoryStore.delete_actor_memory` in memory mode: drop the actor's
events and records, returning `True`. -/
def deleteActorMemory (s : MemStore) (actor : String) : MemStore × Bool :=
  (⟨s.events.filter (fun e => !(e.actorId = actor : Bool)),
    eraseA s.records actor, s.nextId⟩, true)

/-- The record list of one actor (`self._records.get(actor_id, [])`). -/
def recordsOf (s : MemStore) (actor : String) : List MemRecord :=
  (lookupA s.records actor).getD []

/-! ## Spec-side definitions -/

/-- The cosine-similarity score of the specification,
`dot(q,v) / (norm(q) * norm(v))`, as a real number (`norm` being the
Euclidean norm, the square root of the sum of squares).  A zero denominator
yields the junk value `0`; the scoring loop never ranks such vectors. -/
noncomputable def realScore (qv : List ℚ) (a : Scored) : ℝ :=
  (dotQ qv a.vec : ℝ) / (Real.sqrt (sumSq qv) * Real.sqrt (sumSq a.vec))

/-! ## Concrete stores and inputs used to instantiate the theorems -/

deriving instance DecidableEq for Except

/-- A one-vector store used to instantiate the vector-store theorems. -/
def c1Rec : VectorRecord := ⟨"a", [1, 0, 0], [], none⟩

def c1Idx : IndexData := ⟨3, "cosine", [("a", c1Rec)]⟩

def c1Store : VStore := ⟨[("docs", c1Idx)], 0⟩

/-- The two-vector store showing that `top_k` truncation can drop a
filter-matching vector. -/
def c7Rec (k : String) : VectorRecord := ⟨k, [1], [("t", "x")], none⟩

def c7Idx : IndexData := ⟨1, "cosine", [("a", c7Rec "a"), ("b", c7Rec "b")]⟩

def c7Store : VStore := ⟨[("i", c7Idx)], 0⟩

/-- The concrete run refuting C3: create index `"a"`, persist, delete it —
the store no longer has the index, but its file was never removed, so a
fresh store loading the directory resurrects the deleted index. -/
def c3DS1 : DiskVStore := (createIndexD ⟨VStore.empty, []⟩ "a" 3 "cosine").1

def c3DS2 : DiskVStore := (deleteIndexD c3DS1 "a").1

def c4Edge : GraphEdge := ⟨"e1", "A", "B", "OWNS", [], none, none⟩

/-- The two-node, one-edge graph of Scenario B. -/
def c5Graph : NXGraph :=
  ⟨[("A", some ⟨"User", [], none⟩), ("B", some ⟨"Doc", [], none⟩)],
    [(("A", "B"), ⟨"e1", "OWNS", [], none, none⟩)], 0⟩

def c6e1 : MemEvent := ⟨"u", "s", "USER", "a", "2024-01-02", []⟩

def c6e2 : MemEvent := ⟨"u", "s", "USER", "b", "2024-01-01", []⟩

/-- An event whose content exceeds the 100-character promotion
threshold. -/
def c9Event : MemEvent :=
  ⟨"u", "s", "USER", "aaaaaaaaaaaaaaaaaaaaaaaaaaaaaaaaaaaaaaaaaaaaaaaaaaaaaaaaaaaaaaaaaaaaaaaaaaaaaaaaaaaaaaaaaaaaaaaaaaaaa", "2024-01-01", []⟩

/-! ## Lemmas about association lists -/


theorem lookupA_upsertA_self {κ ν : Type} [DecidableEq κ]
    (l : List (κ × ν)) (k : κ) (v : ν) :
    lookupA (upsertA l k v) k = some v := by
  induction l with
  | nil => simp [upsertA, lookupA]
  | cons p rest ih =>
    obtain ⟨a, w⟩ := p
    by_cases h : a = k <;> simp [upsertA, lookupA, h, ih]

theorem lookupA_upsertA_ne {κ ν : Type} [DecidableEq κ]
    (l : List (κ × ν)) (k k' : κ) (v : ν) (h : k' ≠ k) :
    lookupA (upsertA l k v) k' = lookupA l k' := by
  have hkk : ¬ k = k' := fun h' => h h'.symm
  induction l with
  | nil => simp [upsertA, lookupA, hkk]
  | cons p rest ih =>
    obtain ⟨a, w⟩ := p
    by_cases ha : a = k
    · subst ha
      simp [upsertA, lookupA, hkk]
    · simp [upsertA, lookupA, ha, ih]

theorem containsA_iff_mem_keysA {κ ν : Type} [DecidableEq κ]
    (l : List (κ × ν)) (k : κ) :
    containsA l k = true ↔ k ∈ keysA l := by
  simp only [containsA, keysA, List.any_eq_true, decide_eq_true_eq, List.mem_map]

theorem lookupA_eq_none_iff {κ ν : Type} [DecidableEq κ]
    (l : List (κ × ν)) (k : κ) :
    lookupA l k = none ↔ k ∉ keysA l := by
  induction l with
  | nil => simp [lookupA, keysA]
  | cons p rest ih =>
    obtain ⟨a, w⟩ := p
    by_cases h : a = k
    · subst h
      simp [lookupA, keysA]
    · simp [lookupA, keysA, h, ih, Ne.symm h]

theorem containsA_eq_false_iff {κ ν : Type} [DecidableEq κ]
    (l : List (κ × ν)) (k : κ) :
    containsA l k = false ↔ lookupA l k = none := by
  constructor
  · intro h
    rw [lookupA_eq_none_iff]
    intro hk
    have hc : containsA l k = true := (containsA_iff_mem_keysA l k).mpr hk
    rw [h] at hc
    cases hc
  · intro h
    cases hc : containsA l k
    · rfl
    · have hk := (containsA_iff_mem_keysA l k).mp hc
      rw [lookupA_eq_none_iff] at h
      exact absurd hk h

theorem lookupA_mem {κ ν : Type} [DecidableEq κ]
    {l : List (κ × ν)} {k : κ} {v : ν} (h : lookupA l k = some v) :
    (k, v) ∈ l := by
  induction l with
  | nil => simp [lookupA] at h
  | cons p rest ih =>
    obtain ⟨a, w⟩ := p
    by_cases ha : a = k
    · subst ha
      have h' : w = v := by simpa [lookupA] using h
      subst h'
      exact List.mem_cons_self _ _
    · simp only [lookupA, if_neg ha] at h
      exact List.mem_cons_of_mem _ (ih h)

theorem lookupA_of_mem_nodup {κ ν : Type} [DecidableEq κ]
    {l : List (κ × ν)} (hnd : (keysA l).Nodup) {k : κ} {v : ν}
    (h : (k, v) ∈ l) : lookupA l k = some v := by
  induction l with
  | nil => simp at h
  | cons p rest ih =>
    obtain ⟨a, w⟩ := p
    simp only [keysA, List.map_cons, List.nodup_cons] at hnd
    rcases List.mem_cons.mp h with h1 | h1
    · obtain ⟨rfl, rfl⟩ := Prod.ext_iff.mp h1
      simp [lookupA]
    · have hk : k ∈ keysA rest := List.mem_map.mpr ⟨(k, v), h1, rfl⟩
      have ha : ¬ a = k := fun h' => hnd.1 (h' ▸ hk)
      rw [lookupA, if_neg ha]
      exact ih hnd.2 h1

theorem lookupA_append_left {κ ν : Type} [DecidableEq κ]
    {l1 : List (κ × ν)} (l2 : List (κ × ν)) {k : κ} {v : ν}
    (h : lookupA l1 k = some v) : lookupA (l1 ++ l2) k = some v := by
  induction l1 with
  | nil => simp [lookupA] at h
  | cons p rest ih =>
    obtain ⟨a, w⟩ := p
    by_cases ha : a = k
    · rw [lookupA, if_pos ha] at h
      rw [show ((a, w) :: rest) ++ l2 = (a, w) :: (rest ++ l2) from rfl,
        lookupA, if_pos ha]
      exact h
    · rw [lookupA, if_neg ha] at h
      rw [show ((a, w) :: rest) ++ l2 = (a, w) :: (rest ++ l2) from rfl,
        lookupA, if_neg ha]
      exact ih h

theorem lookupA_append_right {κ ν : Type} [DecidableEq κ]
    {l1 : List (κ × ν)} (l2 : List (κ × ν)) {k : κ}
    (h : lookupA l1 k = none) : lookupA (l1 ++ l2) k = lookupA l2 k := by
  induction l1 with
  | nil => simp
  | cons p rest ih =>
    obtain ⟨a, w⟩ := p
    by_cases ha : a = k
    · rw [lookupA, if_pos ha] at h
      cases h
    · rw [lookupA, if_neg ha] at h
      rw [show ((a, w) :: rest) ++ l2 = (a, w) :: (rest ++ l2) from rfl,
        lookupA, if_neg ha]
      exact ih h

theorem keysA_upsertA_of_contains {κ ν : Type} [DecidableEq κ]
    {l : List (κ × ν)} {k : κ} (v : ν) (h : containsA l k = true) :
    keysA (upsertA l k v) = keysA l := by
  induction l with
  | nil => simp [containsA] at h
  | cons p rest ih =>
    obtain ⟨a, w⟩ := p
    by_cases ha : a = k
    · subst ha
      simp [upsertA, keysA]
    · simp only [containsA, List.any_cons, Bool.or_eq_true, decide_eq_true_eq] at h
      rcases h with h | h
    
      · exact absurd h ha
      · simpa [upsertA, keysA, ha] using ih (by simpa [containsA] using h)

theorem keysA_upsertA_of_not_contains {κ ν : Type} [DecidableEq κ]
    {l : List (κ × ν)} {k : κ} (v : ν) (h : containsA l k = false) :
    keysA (upsertA l k v) = keysA l ++ [k] := by
  induction l with
  | nil => simp [upsertA, keysA]
  | cons p rest ih =>
    obtain ⟨a, w⟩ := p
    simp only [containsA, List.any_cons, Bool.or_eq_false_iff] at h
    have ha : ¬ a = k := by simpa using h.1
    simpa [upsertA, keysA, ha] using ih (by simpa [containsA] using h.2)

theorem nodup_keysA_upsertA {κ ν : Type} [DecidableEq κ]
    {l : List (κ × ν)} (hnd : (keysA l).Nodup) (k : κ) (v : ν) :
    (keysA (upsertA l k v)).Nodup := by
  cases h : containsA l k
  · rw [keysA_upsertA_of_not_contains v h]
    have hk : k ∉ keysA l := by
      rw [← containsA_iff_mem_keysA]
      simp [h]
    simp [List.nodup_append, hnd, hk]
  · rw [keysA_upsertA_of_contains v h]
    exact hnd

theorem length_upsertA_of_contains {κ ν : Type} [DecidableEq κ]
    {l : List (κ × ν)} {k : κ} (v : ν) (h : containsA l k = true) :
    (upsertA l k v).length = l.length := by
  induction l with
  | nil => simp [containsA] at h
  | cons p rest ih =>
    obtain ⟨a, w⟩ := p
    by_cases ha : a = k
    · subst ha
      simp [upsertA]
    · simp only [containsA, List.any_cons, Bool.or_eq_true, decide_eq_true_eq] at h
      rcases h with h | h
      · exact absurd h ha
      · simpa [upsertA, ha] using ih (by simpa [containsA] using h)

theorem countP_eq_zero_of_not_mem_keysA {κ ν : Type} [DecidableEq κ]
    {l : List (κ × ν)} {k : κ} (h : k ∉ keysA l) :
    l.countP (fun p => decide (p.1 = k)) = 0 := by
  rw [List.countP_eq_zero]
  intro p hp
  simp only [decide_eq_true_eq]
  intro hk
  exact h (List.mem_map.mpr ⟨p, hp, hk⟩)

theorem countP_upsertA_self {κ ν : Type} [DecidableEq κ]
    {l : List (κ × ν)} (hnd : (keysA l).Nodup) (k : κ) (v : ν) :
    (upsertA l k v).countP (fun p => decide (p.1 = k)) = 1 := by
  induction l with
  | nil => simp [upsertA]
  | cons p rest ih =>
    obtain ⟨a, w⟩ := p
    simp only [keysA, List.map_cons, List.nodup_cons] at hnd
    by_cases ha : a = k
    · subst ha
      have he : upsertA ((a, w) :: rest) a v = (a, v) :: rest := by
        simp [upsertA]
      rw [he, List.countP_cons]
      have h0 : rest.countP (fun p => decide (p.1 = a)) = 0 :=
        countP_eq_zero_of_not_mem_keysA hnd.1
      simp [h0]
    · have he : upsertA ((a, w) :: rest) k v = (a, w) :: upsertA rest k v := by
        simp [upsertA, ha]
      rw [he, List.countP_cons]
      simp [ha, ih hnd.2]

theorem containsA_upsertA_self {κ ν : Type} [DecidableEq κ]
    (l : List (κ × ν)) (k : κ) (v : ν) :
    containsA (upsertA l k v) k = true := by
  induction l with
  | nil => simp [upsertA, containsA]
  | cons p rest ih =>
    obtain ⟨a, w⟩ := p
    by_cases ha : a = k
    · subst ha
      simp [upsertA, containsA]
    · simpa [upsertA, containsA, ha] using ih

theorem lookupA_foldl_upsertA_of_not_mem {κ ν μ : Type} [DecidableEq κ]
    (g : ν → μ) (l : List (κ × ν)) (d : List (κ × μ)) (k : κ)
    (h : k ∉ keysA l) :
    lookupA (l.foldl (fun acc p => upsertA acc p.1 (g p.2)) d) k = lookupA d k := by
  induction l generalizing d with
  | nil => simp
  | cons p rest ih =>
    obtain ⟨a, w⟩ := p
    simp only [keysA, List.map_cons, List.mem_cons, not_or] at h
    rw [List.foldl_cons]
    dsimp only
    rw [ih _ (by simpa [keysA] using h.2)]
    exact lookupA_upsertA_ne _ _ _ _ h.1

theorem lookupA_foldl_upsertA_of_lookup {κ ν μ : Type} [DecidableEq κ]
    (g : ν → μ) {l : List (κ × ν)} (d : List (κ × μ)) {k : κ} {v : ν}
    (hnd : (keysA l).Nodup) (h : lookupA l k = some v) :
    lookupA (l.foldl (fun acc p => upsertA acc p.1 (g p.2)) d) k = some (g v) := by
  induction l generalizing d with
  | nil => simp [lookupA] at h
  | cons p rest ih =>
    obtain ⟨a, w⟩ := p
    simp only [keysA, List.map_cons, List.nodup_cons] at hnd
    by_cases ha : a = k
    · subst ha
      rw [lookupA, if_pos rfl] at h
      obtain rfl : w = v := Option.some.inj h
      rw [List.foldl_cons]
      dsimp only
      rw [lookupA_foldl_upsertA_of_not_mem g rest _ _ (by simpa [keysA] using hnd.1)]
      exact lookupA_upsertA_self _ _ _
    · rw [lookupA, if_neg ha] at h
      rw [List.foldl_cons]
      dsimp only
      exact ih _ hnd.2 h

theorem lookupA_map_snd {κ ν μ : Type} [DecidableEq κ]
    (h : ν → μ) (l : List (κ × ν)) (k : κ) :
    lookupA (l.map (fun p => (p.1, h p.2))) k = (lookupA l k).map h := by
  induction l with
  | nil => simp [lookupA]
  | cons p rest ih =>
    obtain ⟨a, w⟩ := p
    by_cases ha : a = k <;> simp [lookupA, ha, ih]

/-! ## Lemmas about the cosine-score comparator -/

theorem sumSq_nonneg (v : List ℚ) : 0 ≤ sumSq v := by
  apply List.sum_nonneg
  intro x hx
  obtain ⟨y, _, rfl⟩ := List.mem_map.mp hx
  exact mul_self_nonneg y

/-- The decidable comparator `leB` decides exactly the comparison of the
real cosine scores, for any query vector of nonzero norm. -/
theorem scoreLe_iff (qv : List ℚ) (hq : sumSq qv ≠ 0) (a b : Scored) :
    leB qv a b = true ↔ realScore qv a ≤ realScore qv b := by
  have hqR : (0 : ℝ) < Real.sqrt ((sumSq qv : ℚ) : ℝ) := by
    rw [Real.sqrt_pos]
    exact_mod_cast lt_of_le_of_ne (sumSq_nonneg qv) (Ne.symm hq)
  by_cases hsa : sumSq a.vec = 0
  · have hca : ((sumSq a.vec : ℚ) : ℝ) = 0 := by exact_mod_cast hsa
    have hra : realScore qv a = 0 := by
      unfold realScore
      rw [hca, Real.sqrt_zero, mul_zero, div_zero]
    by_cases hsb : sumSq b.vec = 0
    · have hcb : ((sumSq b.vec : ℚ) : ℝ) = 0 := by exact_mod_cast hsb
      have hrb : realScore qv b = 0 := by
        unfold realScore
        rw [hcb, Real.sqrt_zero, mul_zero, div_zero]
      simp only [leB, if_pos hsa, if_pos hsb, hra, hrb, le_refl, iff_true]
    · have hsbR : (0 : ℝ) < Real.sqrt ((sumSq b.vec : ℚ) : ℝ) := by
        rw [Real.sqrt_pos]
        exact_mod_cast lt_of_le_of_ne (sumSq_nonneg b.vec) (Ne.symm hsb)
      simp only [leB, if_pos hsa, if_neg hsb, decide_eq_true_eq, hra]
      unfold realScore
      rw [le_div_iff₀ (mul_pos hqR hsbR), zero_mul]
      constructor
      · intro h
        exact_mod_cast h
      · intro h
        exact_mod_cast h
  · have hsaR : (0 : ℝ) < Real.sqrt ((sumSq a.vec : ℚ) : ℝ) := by
      rw [Real.sqrt_pos]
      exact_mod_cast lt_of_le_of_ne (sumSq_nonneg a.vec) (Ne.symm hsa)
    by_cases hsb : sumSq b.vec = 0
    · have hcb : ((sumSq b.vec : ℚ) : ℝ) = 0 := by exact_mod_cast hsb
      have hrb : realScore qv b = 0 := by
        unfold realScore
        rw [hcb, Real.sqrt_zero, mul_zero, div_zero]
      simp only [leB, if_neg hsa, if_pos hsb, decide_eq_true_eq, hrb]
      unfold realScore
      rw [div_le_iff₀ (mul_pos hqR hsaR), zero_mul]
      constructor
      · intro h
        exact_mod_cast h
      · intro h
        exact_mod_cast h
    · have hsbR : (0 : ℝ) < Real.sqrt ((sumSq b.vec : ℚ) : ℝ) := by
        rw [Real.sqrt_pos]
        exact_mod_cast lt_of_le_of_ne (sumSq_nonneg b.vec) (Ne.symm hsb)
      have sqA : Real.sqrt ((sumSq a.vec : ℚ) : ℝ) * Real.sqrt ((sumSq a.vec : ℚ) : ℝ) =
          ((sumSq a.vec : ℚ) : ℝ) :=
        Real.mul_self_sqrt (by exact_mod_cast sumSq_nonneg a.vec)
      have sqB : Real.sqrt ((sumSq b.vec : ℚ) : ℝ) * Real.sqrt ((sumSq b.vec : ℚ) : ℝ) =
          ((sumSq b.vec : ℚ) : ℝ) :=
        Real.mul_self_sqrt (by exact_mod_cast sumSq_nonneg b.vec)
      have key : (realScore qv a ≤ realScore qv b) ↔
          ((dotQ qv a.vec : ℚ) : ℝ) * Real.sqrt ((sumSq b.vec : ℚ) : ℝ) ≤
            ((dotQ qv b.vec : ℚ) : ℝ) * Real.sqrt ((sumSq a.vec : ℚ) : ℝ) := by
        unfold realScore
        rw [div_le_div_iff₀ (mul_pos hqR hsaR) (mul_pos hqR hsbR)]
        rw [show ((dotQ qv a.vec : ℚ) : ℝ) *
              (Real.sqrt ((sumSq qv : ℚ) : ℝ) * Real.sqrt ((sumSq b.vec : ℚ) : ℝ)) =
            Real.sqrt ((sumSq qv : ℚ) : ℝ) *
              (((dotQ qv a.vec : ℚ) : ℝ) * Real.sqrt ((sumSq b.vec : ℚ) : ℝ)) from by ring]
        rw [show ((dotQ qv b.vec : ℚ) : ℝ) *
              (Real.sqrt ((sumSq qv : ℚ) : ℝ) * Real.sqrt ((sumSq a.vec : ℚ) : ℝ)) =
            Real.sqrt ((sumSq qv : ℚ) : ℝ) *
              (((dotQ qv b.vec : ℚ) : ℝ) * Real.sqrt ((sumSq a.vec : ℚ) : ℝ)) from by ring]
        exact mul_le_mul_left hqR
      rw [key]
      by_cases hda : 0 < dotQ qv a.vec
      · have hdaR : (0 : ℝ) < ((dotQ qv a.vec : ℚ) : ℝ) := by exact_mod_cast hda
        by_cases hdb : 0 < dotQ qv b.vec
        · have hdbR : (0 : ℝ) < ((dotQ qv b.vec : ℚ) : ℝ) := by exact_mod_cast hdb
          simp only [leB, if_neg hsa, if_neg hsb, if_pos hda, if_pos hdb,
            decide_eq_true_eq]
          rw [mul_self_le_mul_self_iff (mul_pos hdaR hsbR).le (mul_pos hdbR hsaR).le]
          have eA : ((dotQ qv a.vec : ℚ) : ℝ) * Real.sqrt ((sumSq b.vec : ℚ) : ℝ) *
                (((dotQ qv a.vec : ℚ) : ℝ) * Real.sqrt ((sumSq b.vec : ℚ) : ℝ)) =
              ((dotQ qv a.vec : ℚ) : ℝ) ^ 2 * ((sumSq b.vec : ℚ) : ℝ) := by
            rw [show ((dotQ qv a.vec : ℚ) : ℝ) * Real.sqrt ((sumSq b.vec : ℚ) : ℝ) *
                  (((dotQ qv a.vec : ℚ) : ℝ) * Real.sqrt ((sumSq b.vec : ℚ) : ℝ)) =
                ((dotQ qv a.vec : ℚ) : ℝ) ^ 2 *
                  (Real.sqrt ((sumSq b.vec : ℚ) : ℝ) * Real.sqrt ((sumSq b.vec : ℚ) : ℝ))
              from by ring, sqB]
          have eB : ((dotQ qv b.vec : ℚ) : ℝ) * Real.sqrt ((sumSq a.vec : ℚ) : ℝ) *
                (((dotQ qv b.vec : ℚ) : ℝ) * Real.sqrt ((sumSq a.vec : ℚ) : ℝ)) =
              ((dotQ qv b.vec : ℚ) : ℝ) ^ 2 * ((sumSq a.vec : ℚ) : ℝ) := by
            rw [show ((dotQ qv b.vec : ℚ) : ℝ) * Real.sqrt ((sumSq a.vec : ℚ) : ℝ) *
                  (((dotQ qv b.vec : ℚ) : ℝ) * Real.sqrt ((sumSq a.vec : ℚ) : ℝ)) =
                ((dotQ qv b.vec : ℚ) : ℝ) ^ 2 *
                  (Real.sqrt ((sumSq a.vec : ℚ) : ℝ) * Real.sqrt ((sumSq a.vec : ℚ) : ℝ))
              from by ring, sqA]
          rw [eA, eB]
          constructor
          · intro h
            exact_mod_cast h
          · intro h
            exact_mod_cast h
        · have hdbR : ((dotQ qv b.vec : ℚ) : ℝ) ≤ 0 := by
            exact_mod_cast le_of_not_lt hdb
          simp only [leB, if_neg hsa, if_neg hsb, if_pos hda, if_neg hdb]
          constructor
          · intro h
            simp at h
          · intro h
            exfalso
            nlinarith [mul_pos hdaR hsbR,
              mul_nonneg (neg_nonneg.mpr hdbR) hsaR.le, h]
      · have hdaR : ((dotQ qv a.vec : ℚ) : ℝ) ≤ 0 := by
          exact_mod_cast le_of_not_lt hda
        by_cases hdb : 0 ≤ dotQ qv b.vec
        · have hdbR : (0 : ℝ) ≤ ((dotQ qv b.vec : ℚ) : ℝ) := by exact_mod_cast hdb
          simp only [leB, if_neg hsa, if_neg hsb, if_neg hda, if_pos hdb, true_iff]
          nlinarith [mul_nonneg (neg_nonneg.mpr hdaR) hsbR.le,
            mul_nonneg hdbR hsaR.le]
        · have hdbR : ((dotQ qv b.vec : ℚ) : ℝ) < 0 := by
            exact_mod_cast lt_of_not_le hdb
          simp only [leB, if_neg hsa, if_neg hsb, if_neg hda, if_neg hdb,
            decide_eq_true_eq]
          conv_rhs => rw [← neg_le_neg_iff]
          rw [show -(((dotQ qv b.vec : ℚ) : ℝ) * Real.sqrt ((sumSq a.vec : ℚ) : ℝ)) =
              (-((dotQ qv b.vec : ℚ) : ℝ)) * Real.sqrt ((sumSq a.vec : ℚ) : ℝ) from by ring]
          rw [show -(((dotQ qv a.vec : ℚ) : ℝ) * Real.sqrt ((sumSq b.vec : ℚ) : ℝ)) =
              (-((dotQ qv a.vec : ℚ) : ℝ)) * Real.sqrt ((sumSq b.vec : ℚ) : ℝ) from by ring]
          rw [mul_self_le_mul_self_iff
            (mul_nonneg (neg_nonneg.mpr hdbR.le) hsaR.le)
            (mul_nonneg (neg_nonneg.mpr hdaR) hsbR.le)]
          have eA : (-((dotQ qv b.vec : ℚ) : ℝ)) * Real.sqrt ((sumSq a.vec : ℚ) : ℝ) *
                ((-((dotQ qv b.vec : ℚ) : ℝ)) * Real.sqrt ((sumSq a.vec : ℚ) : ℝ)) =
              ((dotQ qv b.vec : ℚ) : ℝ) ^ 2 * ((sumSq a.vec : ℚ) : ℝ) := by
            rw [show (-((dotQ qv b.vec : ℚ) : ℝ)) * Real.sqrt ((sumSq a.vec : ℚ) : ℝ) *
                  ((-((dotQ qv b.vec : ℚ) : ℝ)) * Real.sqrt ((sumSq a.vec : ℚ) : ℝ)) =
                ((dotQ qv b.vec : ℚ) : ℝ) ^ 2 *
                  (Real.sqrt ((sumSq a.vec : ℚ) : ℝ) * Real.sqrt ((sumSq a.vec : ℚ) : ℝ))
              from by ring, sqA]
          have eB : (-((dotQ qv a.vec : ℚ) : ℝ)) * Real.sqrt ((sumSq b.vec : ℚ) : ℝ) *
                ((-((dotQ qv a.vec : ℚ) : ℝ)) * Real.sqrt ((sumSq b.vec : ℚ) : ℝ)) =
              ((dotQ qv a.vec : ℚ) : ℝ) ^ 2 * ((sumSq b.vec : ℚ) : ℝ) := by
            rw [show (-((dotQ qv a.vec : ℚ) : ℝ)) * Real.sqrt ((sumSq b.vec : ℚ) : ℝ) *
                  ((-((dotQ qv a.vec : ℚ) : ℝ)) * Real.sqrt ((sumSq b.vec : ℚ) : ℝ)) =
                ((dotQ qv a.vec : ℚ) : ℝ) ^ 2 *
                  (Real.sqrt ((sumSq b.vec : ℚ) : ℝ) * Real.sqrt ((sumSq b.vec : ℚ) : ℝ))
              from by ring, sqB]
          rw [eA, eB]
          constructor
          · intro h
            exact_mod_cast h
          · intro h
            exact_mod_cast h

/-- Totality of the descending ordering used by the sort. -/
theorem rge_total (qv : List ℚ) (hq : sumSq qv ≠ 0) (a b : Scored) :
    Rge qv a b ∨ Rge qv b a := by
  unfold Rge
  rw [scoreLe_iff qv hq, scoreLe_iff qv hq]
  exact le_total _ _

/-- Transitivity of the descending ordering used by the sort. -/
theorem rge_trans (qv : List ℚ) (hq : sumSq qv ≠ 0) (a b c : Scored)
    (h1 : Rge qv a b) (h2 : Rge qv b c) : Rge qv a c := by
  unfold Rge at h1 h2 ⊢
  rw [scoreLe_iff qv hq] at h1 h2 ⊢
  exact le_trans h2 h1

/-! ## Lemmas about the candidate list of `query_vectors` -/

theorem pairwise_fst_lt_enum {α : Type} (l : List α) :
    l.enum.Pairwise (fun p q : Nat × α => p.1 < q.1) := by
  rw [List.pairwise_iff_getElem]
  intro i j hi hj hij
  simp only [List.enum_length] at hi hj
  simp only [List.getElem_enum]
  exact hij

/-- Candidates are listed in strictly increasing position (insertion)
order. -/
theorem candidatesOf_pairwise_idx (idx : IndexData)
    (fil : Option (List (String × String))) :
    (candidatesOf idx fil).Pairwise (fun a b => a.idx < b.idx) := by
  unfold candidatesOf
  refine List.Pairwise.filterMap _ ?_ (pairwise_fst_lt_enum idx.vectors)
  intro p q hpq c hc c' hc'
  simp only [Option.mem_def] at hc hc'
  split at hc
  · cases hc
    split at hc'
    · cases hc'
      exact hpq
    · cases hc'
  · cases hc

/-- Every candidate comes from a stored vector that passes the metadata
filter and has nonzero norm. -/
theorem candidatesOf_sound (idx : IndexData)
    (fil : Option (List (String × String))) :
    ∀ c ∈ candidatesOf idx fil, ∃ r : VectorRecord,
      idx.vectors[c.idx]? = some (c.key, r) ∧ r.vector = c.vec ∧
      r.metadata = c.metadata ∧ matchFilterOpt fil r.metadata = true ∧
      sumSq r.vector ≠ 0 := by
  intro c hc
  unfold candidatesOf at hc
  obtain ⟨p, hp, hf⟩ := List.mem_filterMap.mp hc
  obtain ⟨i, k, r⟩ := p
  split at hf
  case isTrue h =>
    cases hf
    exact ⟨r, List.mk_mem_enum_iff_getElem?.mp hp, rfl, rfl, h.1, h.2⟩
  case isFalse =>
    cases hf

/-- Every stored vector that passes the metadata filter and has nonzero
norm appears among the candidates, at its insertion position. -/
theorem candidatesOf_complete (idx : IndexData)
    (fil : Option (List (String × String))) (i : Nat) (k : String)
    (r : VectorRecord) (hget : idx.vectors[i]? = some (k, r))
    (hm : matchFilterOpt fil r.metadata = true) (hz : sumSq r.vector ≠ 0) :
    (⟨i, k, r.vector, r.metadata⟩ : Scored) ∈ candidatesOf idx fil := by
  unfold candidatesOf
  refine List.mem_filterMap.mpr ⟨(i, k, r), List.mk_mem_enum_iff_getElem?.mpr hget, ?_⟩
  rw [if_pos ⟨hm, hz⟩]

theorem candidatesOf_length_le (idx : IndexData)
    (fil : Option (List (String × String))) :
    (candidatesOf idx fil).length ≤ idx.vectors.length := by
  unfold candidatesOf
  calc (idx.vectors.enum.filterMap _).length ≤ idx.vectors.enum.length :=
        List.length_filterMap_le _ _
    _ = idx.vectors.length := List.enum_length

/-! ## C1: the full `query_vectors` pipeline -/

/-- Claim C1: for every existing index, every query vector with nonzero norm
and every `top_k`, `query_vectors` drops the stored vectors failing the
exact-match metadata filter (when one is given), scores the remaining
nonzero-norm vectors by cosine similarity `dot(q,v)/(norm(q)*norm(v))`,
sorts by descending score with ties kept in the insertion order of the
stored vectors, and returns the first `top_k` results.  The returned list
is `take top_k` of a list `L` that is a permutation of the filtered
candidates, sorted by descending real cosine score, and stable: any two
candidates in insertion order whose scores do not force a swap keep their
relative order. -/
theorem claim_C1_query_pipeline
    (s : VStore) (name : String) (idxd : IndexData) (qv : List ℚ) (topK : Nat)
    (fil : Option (List (String × String)))
    (hidx : lookupA s.indices name = some idxd)
    (hq : sumSq qv ≠ 0) :
    ∃ L : List Scored,
      queryVectors s name qv topK fil = .ok (L.take topK) ∧
      L.Perm (candidatesOf idxd fil) ∧
      L.Sorted (fun a b => realScore qv b ≤ realScore qv a) ∧
      (∀ a b : Scored, [a, b].Sublist (candidatesOf idxd fil) →
        realScore qv b ≤ realScore qv a → [a, b].Sublist L) ∧
      (∀ c ∈ candidatesOf idxd fil, ∃ r : VectorRecord,
        idxd.vectors[c.idx]? = some (c.key, r) ∧ r.vector = c.vec ∧
        r.metadata = c.metadata ∧ matchFilterOpt fil r.metadata = true ∧
        sumSq r.vector ≠ 0) ∧
      (∀ (i : Nat) (k : String) (r : VectorRecord),
        idxd.vectors[i]? = some (k, r) → matchFilterOpt fil r.metadata = true →
        sumSq r.vector ≠ 0 →
        (⟨i, k, r.vector, r.metadata⟩ : Scored) ∈ candidatesOf idxd fil) ∧
      (candidatesOf idxd fil).Pairwise (fun a b => a.idx < b.idx) := by
  haveI instT : IsTotal Scored (Rge qv) := ⟨rge_total qv hq⟩
  haveI instR : IsTrans Scored (Rge qv) := ⟨fun a b c => rge_trans qv hq a b c⟩
  refine ⟨(candidatesOf idxd fil).insertionSort (Rge qv), ?_, ?_, ?_, ?_,
    candidatesOf_sound idxd fil, candidatesOf_complete idxd fil,
    candidatesOf_pairwise_idx idxd fil⟩
  · simp only [queryVectors, hidx]
    by_cases hemp : idxd.vectors.isEmpty
    · have hnil : idxd.vectors = [] := List.isEmpty_iff.mp hemp
      rw [if_pos hemp]
      have hc : candidatesOf idxd fil = [] := by
        unfold candidatesOf
        rw [hnil]
        rfl
      rw [hc]
      simp
    · rw [if_neg hemp, if_neg hq]
  · exact List.perm_insertionSort (Rge qv) _
  · exact (List.sorted_insertionSort (Rge qv) _).imp
      (fun hab => (scoreLe_iff qv hq _ _).mp hab)
  · intro a b hsub hsc
    exact List.pair_sublist_insertionSort ((scoreLe_iff qv hq b a).mpr hsc) hsub



/-- Witness for C1 at a concrete store and query. -/
theorem claim_C1_query_pipeline_witness :
    (lookupA c1Store.indices "docs" = some c1Idx) ∧ sumSq [(1 : ℚ), 0, 0] ≠ 0 ∧
    (∃ L : List Scored,
      queryVectors c1Store "docs" [(1 : ℚ), 0, 0] 10 none = .ok (L.take 10) ∧
      L.Perm (candidatesOf c1Idx none) ∧
      L.Sorted (fun a b =>
        realScore [(1 : ℚ), 0, 0] b ≤ realScore [(1 : ℚ), 0, 0] a) ∧
      (∀ a b : Scored, [a, b].Sublist (candidatesOf c1Idx none) →
        realScore [(1 : ℚ), 0, 0] b ≤ realScore [(1 : ℚ), 0, 0] a →
        [a, b].Sublist L) ∧
      (∀ c ∈ candidatesOf c1Idx none, ∃ r : VectorRecord,
        c1Idx.vectors[c.idx]? = some (c.key, r) ∧ r.vector = c.vec ∧
        r.metadata = c.metadata ∧ matchFilterOpt none r.metadata = true ∧
        sumSq r.vector ≠ 0) ∧
      (∀ (i : Nat) (k : String) (r : VectorRecord),
        c1Idx.vectors[i]? = some (k, r) → matchFilterOpt none r.metadata = true →
        sumSq r.vector ≠ 0 →
        (⟨i, k, r.vector, r.metadata⟩ : Scored) ∈ candidatesOf c1Idx none) ∧
      (candidatesOf c1Idx none).Pairwise (fun a b => a.idx < b.idx)) :=
  ⟨by rfl, by simp [sumSq],
    claim_C1_query_pipeline c1Store "docs" c1Idx [(1 : ℚ), 0, 0] 10 none
      (by rfl) (by simp [sumSq])⟩

/-! ## C2: unknown-index behaviour of the vector-store operations -/

/-- Claim C2 is falsified by `delete_index`: on an unknown index it returns
normally with `False` instead of signalling a NotFound failure (the other
operations raise `ValueError`). -/
theorem claim_C2_counterexample :
    lookupA VStore.empty.indices "missing" = none ∧
    deleteIndex VStore.empty "missing" = .ok (VStore.empty, false) :=
  ⟨rfl, rfl⟩

/-- Claim C2 (amended): on an unknown index, `put_vectors`,
`query_vectors`, `delete_vectors` and `get_vector` raise a NotFound
`ValueError`, while `delete_index` reports the missing index by returning
`False` without raising. -/
theorem claim_C2_unknown_index (s : VStore) (name : String)
    (h : lookupA s.indices name = none) :
    (∀ recs, putVectors s name recs = .error (idxNotFound name)) ∧
    (∀ qv topK fil, queryVectors s name qv topK fil = .error (idxNotFound name)) ∧
    (∀ keys, deleteVectors s name keys = .error (idxNotFound name)) ∧
    (∀ key, getVector s name key = .error (idxNotFound name)) ∧
    deleteIndex s name = .ok (s, false) := by
  have hc : containsA s.indices name = false := (containsA_eq_false_iff _ _).mpr h
  refine ⟨?_, ?_, ?_, ?_, ?_⟩
  · intro recs
    simp only [putVectors, h]
  · intro qv topK fil
    simp only [queryVectors, h]
  · intro keys
    simp only [deleteVectors, h]
  · intro key
    simp only [getVector, h]
  · simp only [deleteIndex, hc, Bool.not_false, if_true]

/-- Witness for C2 at the empty store. -/
theorem claim_C2_unknown_index_witness :
    lookupA VStore.empty.indices "missing" = none ∧
    ((∀ recs, putVectors VStore.empty "missing" recs =
        .error (idxNotFound "missing")) ∧
     (∀ qv topK fil, queryVectors VStore.empty "missing" qv topK fil =
        .error (idxNotFound "missing")) ∧
     (∀ keys, deleteVectors VStore.empty "missing" keys =
        .error (idxNotFound "missing")) ∧
     (∀ key, getVector VStore.empty "missing" key =
        .error (idxNotFound "missing")) ∧
     deleteIndex VStore.empty "missing" = .ok (VStore.empty, false)) :=
  ⟨rfl, claim_C2_unknown_index VStore.empty "missing" rfl⟩

/-! ## C7: inclusion and exclusion under a metadata filter -/



/-- Claim C7 is falsified by truncation: vector `"b"` matches the filter
(and has nonzero norm) but is absent from the result of a `top_k = 1`
query, because the equally-scored `"a"` fills the single slot. -/
theorem claim_C7_counterexample :
    lookupA c7Idx.vectors "b" = some (c7Rec "b") ∧
    matchFilter (c7Rec "b").metadata [("t", "x")] = true ∧
    queryVectors c7Store "i" [(1 : ℚ)] 1 (some [("t", "x")]) =
      .ok [⟨0, "a", [1], [("t", "x")]⟩] := by
  refine ⟨rfl, rfl, ?_⟩
  norm_num [queryVectors, c7Store, c7Idx, c7Rec, candidatesOf, List.enum,
    List.enumFrom, matchFilterOpt, matchFilter, lookupA, sumSq, dotQ,
    List.filterMap_cons, List.insertionSort, List.orderedInsert, Rge, leB]

/-- Claim C7 (amended): under a metadata filter, a stored vector that does
not match is never included in the results; a stored vector that matches
and has nonzero norm is included provided the query has nonzero norm and
`top_k` is at least the number of stored vectors (truncation, a zero-norm
query, and a zero-norm candidate are the only ways a matching vector can
be dropped). -/
theorem claim_C7_filter_semantics
    (s : VStore) (name : String) (idxd : IndexData) (qv : List ℚ) (topK : Nat)
    (fil : List (String × String)) (out : List Scored)
    (hidx : lookupA s.indices name = some idxd)
    (hnd : (keysA idxd.vectors).Nodup)
    (hout : queryVectors s name qv topK (some fil) = .ok out) :
    (∀ k r, lookupA idxd.vectors k = some r →
      matchFilter r.metadata fil = false → ∀ e ∈ out, e.key ≠ k) ∧
    (∀ k r, lookupA idxd.vectors k = some r →
      matchFilter r.metadata fil = true → sumSq r.vector ≠ 0 →
      sumSq qv ≠ 0 → idxd.vectors.length ≤ topK →
      ∃ e ∈ out, e.key = k ∧ e.metadata = r.metadata ∧ e.vec = r.vector) := by
  simp only [queryVectors, hidx] at hout
  by_cases hemp : idxd.vectors.isEmpty
  · rw [if_pos hemp] at hout
    have hnil : idxd.vectors = [] := List.isEmpty_iff.mp hemp
    obtain rfl : ([] : List Scored) = out := Except.ok.inj hout
    constructor
    · intro k r _ _ e he
      exact absurd he (List.not_mem_nil e)
    · intro k r hlook
      rw [hnil] at hlook
      simp [lookupA] at hlook
  · rw [if_neg hemp] at hout
    by_cases hqz : sumSq qv = 0
    · rw [if_pos hqz] at hout
      obtain rfl : ([] : List Scored) = out := Except.ok.inj hout
      constructor
      · intro k r _ _ e he
        exact absurd he (List.not_mem_nil e)
      · intro k r _ _ _ hq _
        exact absurd hqz hq
    · rw [if_neg hqz] at hout
      obtain rfl :
          ((candidatesOf idxd (some fil)).insertionSort (Rge qv)).take topK = out :=
        Except.ok.inj hout
      constructor
      · intro k r hlook hmf e he hek
        have heL : e ∈ (candidatesOf idxd (some fil)).insertionSort (Rge qv) :=
          List.mem_of_mem_take he
        have hecand : e ∈ candidatesOf idxd (some fil) :=
          (List.perm_insertionSort (Rge qv) _).mem_iff.mp heL
        obtain ⟨r', hget', _, _, hm', _⟩ :=
          candidatesOf_sound idxd (some fil) e hecand
        have hmem' : (e.key, r') ∈ idxd.vectors := by
          have h := List.getElem?_eq_some_iff.mp hget'
          obtain ⟨hlt, hgeteq⟩ := h
          exact hgeteq ▸ List.getElem_mem hlt
        have hlook' : lookupA idxd.vectors e.key = some r' :=
          lookupA_of_mem_nodup hnd hmem'
        rw [hek, hlook] at hlook'
        obtain rfl : r = r' := Option.some.inj hlook'
        simp only [matchFilterOpt] at hm'
        rw [hmf] at hm'
        cases hm'
      · intro k r hlook hmf hz hq hlen
        have hmem : (k, r) ∈ idxd.vectors := lookupA_mem hlook
        obtain ⟨i, hi, hgeti⟩ := List.mem_iff_getElem.mp hmem
        have hget? : idxd.vectors[i]? = some (k, r) := by
          rw [List.getElem?_eq_getElem hi, hgeti]
        have hc : (⟨i, k, r.vector, r.metadata⟩ : Scored) ∈
            candidatesOf idxd (some fil) :=
          candidatesOf_complete idxd (some fil) i k r hget?
            (by simpa [matchFilterOpt] using hmf) hz
        have hcL : (⟨i, k, r.vector, r.metadata⟩ : Scored) ∈
            (candidatesOf idxd (some fil)).insertionSort (Rge qv) :=
          (List.perm_insertionSort (Rge qv) _).mem_iff.mpr hc
        have hlen' :
            ((candidatesOf idxd (some fil)).insertionSort (Rge qv)).length ≤ topK := by
          rw [List.length_insertionSort]
          exact le_trans (candidatesOf_length_le idxd (some fil)) hlen
        rw [List.take_of_length_le hlen']
        exact ⟨_, hcL, rfl, rfl, rfl⟩

/-- Witness for the amended C7 at a concrete store and query. -/
theorem claim_C7_filter_semantics_witness :
    (lookupA c1Store.indices "docs" = some c1Idx) ∧
    ((keysA c1Idx.vectors).Nodup) ∧
    (queryVectors c1Store "docs" [(1 : ℚ), 0, 0] 10 (some []) =
      .ok [⟨0, "a", [1, 0, 0], []⟩]) ∧
    ((∀ k r, lookupA c1Idx.vectors k = some r →
      matchFilter r.metadata [] = false →
      ∀ e ∈ [(⟨0, "a", [1, 0, 0], []⟩ : Scored)], e.key ≠ k) ∧
    (∀ k r, lookupA c1Idx.vectors k = some r →
      matchFilter r.metadata [] = true → sumSq r.vector ≠ 0 →
      sumSq [(1 : ℚ), 0, 0] ≠ 0 → c1Idx.vectors.length ≤ 10 →
      ∃ e ∈ [(⟨0, "a", [1, 0, 0], []⟩ : Scored)],
        e.key = k ∧ e.metadata = r.metadata ∧ e.vec = r.vector)) :=
  ⟨by rfl, by decide,
    by simp [queryVectors, c1Store, c1Idx, c1Rec, candidatesOf, List.enum,
      List.enumFrom, matchFilterOpt, matchFilter, lookupA, sumSq, dotQ,
      List.filterMap_cons, List.insertionSort, List.orderedInsert, Rge, leB],
    claim_C7_filter_semantics c1Store "docs" c1Idx [(1 : ℚ), 0, 0] 10 []
      [⟨0, "a", [1, 0, 0], []⟩] (by rfl) (by decide)
      (by simp [queryVectors, c1Store, c1Idx, c1Rec, candidatesOf, List.enum,
        List.enumFrom, matchFilterOpt, matchFilter, lookupA, sumSq, dotQ,
        List.filterMap_cons, List.insertionSort, List.orderedInsert, Rge, leB])⟩

/-! ## C8: batch semantics of `put_vectors` -/

/-- The count returned by the `put_vectors` loop is the number of records
whose vector length matches the index dimension. -/
theorem putLoop_count (dim : Nat) (rs : List VectorRecord)
    (vecs : List (String × VectorRecord)) (n cnt : Nat) :
    (putLoop dim rs vecs n cnt).2.2 =
      cnt + (rs.filter (fun r => decide (r.vector.length = dim))).length := by
  induction rs generalizing vecs n cnt with
  | nil => simp [putLoop]
  | cons r rs ih =>
    by_cases hd : r.vector.length = dim
    · have hd' : ¬ r.vector.length ≠ dim := by simpa using hd
      by_cases hk : r.key = ""
      · rw [putLoop, if_neg hd', if_pos hk, ih,
          List.filter_cons_of_pos (by simpa using hd)]
        simp only [List.length_cons]
        omega
      · rw [putLoop, if_neg hd', if_neg hk, ih,
          List.filter_cons_of_pos (by simpa using hd)]
        simp only [List.length_cons]
        omega
    · rw [putLoop, if_pos hd, ih, List.filter_cons_of_neg (by simpa using hd)]

/-- The `put_vectors` loop leaves every key untouched that is not the key
of some dimension-correct record of the batch (all keys nonempty). -/
theorem putLoop_lookup_untouched (dim : Nat) (rs : List VectorRecord)
    (vecs : List (String × VectorRecord)) (n cnt : Nat) (k : String)
    (hne : ∀ r ∈ rs, r.key ≠ "")
    (hk : ∀ r ∈ rs, r.vector.length = dim → r.key ≠ k) :
    lookupA (putLoop dim rs vecs n cnt).1 k = lookupA vecs k := by
  induction rs generalizing vecs n cnt with
  | nil => simp [putLoop]
  | cons r rs ih =>
    have hner : r.key ≠ "" := hne r (List.mem_cons_self _ _)
    by_cases hd : r.vector.length = dim
    · have hd' : ¬ r.vector.length ≠ dim := by simpa using hd
      rw [putLoop, if_neg hd', if_neg hner,
        ih _ _ _ (fun r' h => hne r' (List.mem_cons_of_mem _ h))
          (fun r' h => hk r' (List.mem_cons_of_mem _ h))]
      exact lookupA_upsertA_ne _ _ _ _
        (Ne.symm (hk r (List.mem_cons_self _ _) hd))
    · rw [putLoop, if_pos hd]
      exact ih _ _ _ (fun r' h => hne r' (List.mem_cons_of_mem _ h))
        (fun r' h => hk r' (List.mem_cons_of_mem _ h))

/-- Every dimension-correct record of the batch ends up stored under its
key (all keys nonempty and distinct). -/
theorem putLoop_lookup_good (dim : Nat) (rs : List VectorRecord)
    (vecs : List (String × VectorRecord)) (n cnt : Nat)
    (hne : ∀ r ∈ rs, r.key ≠ "")
    (hnd : (rs.map (fun r => r.key)).Nodup) :
    ∀ r ∈ rs, r.vector.length = dim →
      lookupA (putLoop dim rs vecs n cnt).1 r.key = some (storedRecord r.key r) := by
  induction rs generalizing vecs n cnt with
  | nil =>
    intro r hr
    cases hr
  | cons r0 rs ih =>
    intro r hr hd
    simp only [List.map_cons, List.nodup_cons] at hnd
    have hne0 : r0.key ≠ "" := hne r0 (List.mem_cons_self _ _)
    rcases List.mem_cons.mp hr with rfl | hr'
    · have hd' : ¬ r.vector.length ≠ dim := by simpa using hd
      rw [putLoop, if_neg hd', if_neg hne0,
        putLoop_lookup_untouched dim rs _ _ _ _
          (fun r' h => hne r' (List.mem_cons_of_mem _ h))
          (fun r' h' _ he => hnd.1 (List.mem_map.mpr ⟨r', h', he⟩))]
      exact lookupA_upsertA_self _ _ _
    · by_cases hd0 : r0.vector.length = dim
      · have hd0' : ¬ r0.vector.length ≠ dim := by simpa using hd0
        rw [putLoop, if_neg hd0', if_neg hne0]
        exact ih _ _ _ (fun r' h => hne r' (List.mem_cons_of_mem _ h))
          hnd.2 r hr' hd
      · rw [putLoop, if_pos hd0]
        exact ih _ _ _ (fun r' h => hne r' (List.mem_cons_of_mem _ h))
          hnd.2 r hr' hd

/-- Claim C8: on an existing index of dimension `d`, `put_vectors` upserts
exactly the records whose vector length equals `d`, keyed by their string
key; records of the wrong length are skipped while the batch continues,
nothing is raised, and the returned count — the number of records actually
inserted — is strictly less than the batch size exactly when some record
was skipped.  (Keys are assumed nonempty — a falsy key would be replaced
by a generated uuid — and pairwise distinct.) -/
theorem claim_C8_put_vectors
    (s : VStore) (name : String) (idxd : IndexData) (recs : List VectorRecord)
    (hidx : lookupA s.indices name = some idxd)
    (hne : ∀ r ∈ recs, r.key ≠ "")
    (hnd : (recs.map (fun r => r.key)).Nodup) :
    ∃ s' : VStore, ∃ idxd' : IndexData,
      putVectors s name recs =
        .ok (s', (recs.filter
          (fun r => decide (r.vector.length = idxd.dimension))).length) ∧
      ((recs.filter
          (fun r => decide (r.vector.length = idxd.dimension))).length <
          recs.length ↔ ∃ r ∈ recs, r.vector.length ≠ idxd.dimension) ∧
      lookupA s'.indices name = some idxd' ∧
      idxd'.dimension = idxd.dimension ∧ idxd'.metric = idxd.metric ∧
      (∀ r ∈ recs, r.vector.length = idxd.dimension →
        lookupA idxd'.vectors r.key = some (storedRecord r.key r)) ∧
      (∀ k, k ∉ recs.map (fun r => r.key) →
        lookupA idxd'.vectors k = lookupA idxd.vectors k) ∧
      (∀ r ∈ recs, r.vector.length ≠ idxd.dimension →
        lookupA idxd'.vectors r.key = lookupA idxd.vectors r.key) := by
  refine ⟨⟨upsertA s.indices name
      ⟨idxd.dimension, idxd.metric,
        (putLoop idxd.dimension recs idxd.vectors s.nextId 0).1⟩,
      (putLoop idxd.dimension recs idxd.vectors s.nextId 0).2.1⟩,
    ⟨idxd.dimension, idxd.metric,
      (putLoop idxd.dimension recs idxd.vectors s.nextId 0).1⟩,
    ?_, ?_, lookupA_upsertA_self _ _ _, rfl, rfl,
    putLoop_lookup_good idxd.dimension recs idxd.vectors s.nextId 0 hne hnd,
    ?_, ?_⟩
  · simp only [putVectors, hidx]
    rw [putLoop_count, Nat.zero_add]
  · constructor
    · intro h
      by_contra hall
      push_neg at hall
      have hself : recs.filter
          (fun r => decide (r.vector.length = idxd.dimension)) = recs :=
        List.filter_eq_self.mpr (fun r hr => by simpa using hall r hr)
      rw [hself] at h
      exact lt_irrefl _ h
    · rintro ⟨r, hr, hrne⟩
      apply lt_of_le_of_ne (List.length_filter_le _ _)
      intro heq
      have hsub : (recs.filter
          (fun r => decide (r.vector.length = idxd.dimension))).Sublist recs :=
        List.filter_sublist _
      have hself := hsub.eq_of_length heq
      have := List.filter_eq_self.mp hself r hr
      simp only [decide_eq_true_eq] at this
      exact hrne this
  · intro k hk
    exact putLoop_lookup_untouched idxd.dimension recs idxd.vectors s.nextId 0 k
      hne (fun r hr _ he => hk (List.mem_map.mpr ⟨r, hr, he⟩))
  · intro r hr hrne
    apply putLoop_lookup_untouched idxd.dimension recs idxd.vectors s.nextId 0
      r.key hne
    intro r' hr' hlen' he
    have : r' = r := List.inj_on_of_nodup_map hnd hr' hr he
    subst this
    exact hrne hlen'

/-- Witness for C8: a batch with one good and one dimension-mismatched
record against the one-vector store. -/
theorem claim_C8_put_vectors_witness :
    (lookupA c1Store.indices "docs" = some c1Idx) ∧
    ((∀ r ∈ [(⟨"g", [2, 0, 0], [], none⟩ : VectorRecord),
        ⟨"h", [1], [], none⟩], r.key ≠ "") ∧
     (([(⟨"g", [2, 0, 0], [], none⟩ : VectorRecord),
        ⟨"h", [1], [], none⟩].map (fun r => r.key)).Nodup)) ∧
    (∃ s' : VStore, ∃ idxd' : IndexData,
      putVectors c1Store "docs"
          [⟨"g", [2, 0, 0], [], none⟩, ⟨"h", [1], [], none⟩] =
        .ok (s', ([(⟨"g", [2, 0, 0], [], none⟩ : VectorRecord),
            ⟨"h", [1], [], none⟩].filter
          (fun r => decide (r.vector.length = c1Idx.dimension))).length) ∧
      (([(⟨"g", [2, 0, 0], [], none⟩ : VectorRecord),
            ⟨"h", [1], [], none⟩].filter
          (fun r => decide (r.vector.length = c1Idx.dimension))).length <
          [(⟨"g", [2, 0, 0], [], none⟩ : VectorRecord),
            ⟨"h", [1], [], none⟩].length ↔
        ∃ r ∈ [(⟨"g", [2, 0, 0], [], none⟩ : VectorRecord),
            ⟨"h", [1], [], none⟩], r.vector.length ≠ c1Idx.dimension) ∧
      lookupA s'.indices "docs" = some idxd' ∧
      idxd'.dimension = c1Idx.dimension ∧ idxd'.metric = c1Idx.metric ∧
      (∀ r ∈ [(⟨"g", [2, 0, 0], [], none⟩ : VectorRecord),
          ⟨"h", [1], [], none⟩], r.vector.length = c1Idx.dimension →
        lookupA idxd'.vectors r.key = some (storedRecord r.key r)) ∧
      (∀ k, k ∉ [(⟨"g", [2, 0, 0], [], none⟩ : VectorRecord),
          ⟨"h", [1], [], none⟩].map (fun r => r.key) →
        lookupA idxd'.vectors k = lookupA c1Idx.vectors k) ∧
      (∀ r ∈ [(⟨"g", [2, 0, 0], [], none⟩ : VectorRecord),
          ⟨"h", [1], [], none⟩], r.vector.length ≠ c1Idx.dimension →
        lookupA idxd'.vectors r.key = lookupA c1Idx.vectors r.key)) :=
  ⟨by rfl, ⟨by decide, by decide⟩,
    claim_C8_put_vectors c1Store "docs" c1Idx
      [⟨"g", [2, 0, 0], [], none⟩, ⟨"h", [1], [], none⟩]
      (by rfl) (by decide) (by decide)⟩

/-! ## C3: persistence of the vector store -/

theorem deserialize_serialize (dta : IndexData) :
    deserializeIndex (serializeIndex dta) = dta := by
  cases dta with
  | mk dim metric vectors =>
    unfold serializeIndex deserializeIndex
    simp only [List.map_map]
    have hcomp : ((fun p : String × SerRecord =>
          (p.1, (⟨p.2.key, p.2.vector, p.2.metadata, p.2.nspace⟩ : VectorRecord))) ∘
        (fun p : String × VectorRecord =>
          (p.1, (⟨p.2.key, p.2.vector, p.2.metadata, p.2.nspace⟩ : SerRecord)))) =
        id := funext (fun p => rfl)
    rw [hcomp, List.map_id]



/-- Claim C3 is falsified: after a successful `delete_index` (a mutating
call, which persists), reloading the persist directory reconstructs the
deleted index, because `_persist_to_disk` never removes stale files. -/
theorem claim_C3_counterexample :
    (deleteIndexD c3DS1 "a").2 = true ∧
    lookupA c3DS2.store.indices "a" = none ∧
    lookupA (loadFromDisk c3DS2.disk).indices "a" =
      some ⟨3, "cosine", []⟩ :=
  ⟨rfl, rfl, rfl⟩

/-- Claim C3 (amended): after each mutating call the full state of every
index still in the store (dimension, metric, all vectors with metadata) is
written to that index's file, and a fresh store loading the directory
reconstructs every such index exactly; but the file of a deleted index is
not removed, so deletion does not survive a reload. -/
theorem claim_C3_persistence (d : Disk) (s : VStore)
    (hnd : (keysA s.indices).Nodup) (name : String) (data : IndexData)
    (h : lookupA s.indices name = some data) :
    lookupA (persistToDisk d s) name = some (serializeIndex data) ∧
    lookupA (loadFromDisk (persistToDisk d s)).indices name = some data := by
  have h1 : lookupA (persistToDisk d s) name = some (serializeIndex data) :=
    lookupA_foldl_upsertA_of_lookup serializeIndex d hnd h
  refine ⟨h1, ?_⟩
  show lookupA ((persistToDisk d s).map (fun p => (p.1, deserializeIndex p.2)))
      name = some data
  rw [lookupA_map_snd, h1, Option.map_some', deserialize_serialize]

/-- Witness for the amended C3 at a concrete store and empty directory. -/
theorem claim_C3_persistence_witness :
    ((keysA c1Store.indices).Nodup) ∧
    (lookupA c1Store.indices "docs" = some c1Idx) ∧
    (lookupA (persistToDisk [] c1Store) "docs" = some (serializeIndex c1Idx) ∧
     lookupA (loadFromDisk (persistToDisk [] c1Store)).indices "docs" =
       some c1Idx) :=
  ⟨by decide, by rfl,
    claim_C3_persistence [] c1Store (by decide) "docs" c1Idx (by rfl)⟩

/-! ## Lemmas about `ensureNode` (implicit node creation by `add_edge`) -/

theorem ensureNode_eq_of_contains {nodes : List (String × Option NodeAttrs)}
    {id : String} (h : containsA nodes id = true) :
    ensureNode nodes id = nodes := by
  unfold ensureNode
  rw [if_pos h]

theorem containsA_ensureNode_self (nodes : List (String × Option NodeAttrs))
    (id : String) : containsA (ensureNode nodes id) id = true := by
  unfold ensureNode
  cases h : containsA nodes id
  · simp only [Bool.false_eq_true, if_false]
    simp [containsA, List.any_append]
  · simp only [if_true]
    exact h

theorem containsA_ensureNode_mono {nodes : List (String × Option NodeAttrs)}
    {k : String} (id : String) (h : containsA nodes k = true) :
    containsA (ensureNode nodes id) k = true := by
  unfold ensureNode
  cases hc : containsA nodes id
  · simp only [Bool.false_eq_true, if_false]
    simp [containsA, List.any_append] at h ⊢
    exact Or.inl h
  · simpa using h

theorem lookupA_ensureNode_self_of_not {nodes : List (String × Option NodeAttrs)}
    {id : String} (h : containsA nodes id = false) :
    lookupA (ensureNode nodes id) id = some none := by
  unfold ensureNode
  rw [h]
  simp only [Bool.false_eq_true, if_false]
  rw [lookupA_append_right _ ((containsA_eq_false_iff _ _).mp h)]
  simp [lookupA]

theorem lookupA_ensureNode_preserve {nodes : List (String × Option NodeAttrs)}
    {k : String} {v : Option NodeAttrs} (id : String)
    (h : lookupA nodes k = some v) :
    lookupA (ensureNode nodes id) k = some v := by
  unfold ensureNode
  cases hc : containsA nodes id
  · simp only [Bool.false_eq_true, if_false]
    exact lookupA_append_left _ h
  · simpa using h

theorem containsA_ensureNode_of_ne {nodes : List (String × Option NodeAttrs)}
    {k : String} (id : String) (hk : k ≠ id)
    (h : containsA nodes k = false) :
    containsA (ensureNode nodes id) k = false := by
  unfold ensureNode
  cases hc : containsA nodes id
  · simp only [Bool.false_eq_true, if_false]
    simp [containsA, List.any_append] at h ⊢
    exact ⟨h, fun he => hk he.symm⟩
  · simpa using h

/-! ## C4: `create_edge` with missing endpoints -/

/-- Claim C4 is falsified: on the empty graph, `create_edge` does not fail
fast — it silently creates both missing endpoints as attribute-less
placeholder nodes and stores the edge (NetworkX `add_edge` semantics). -/
theorem claim_C4_counterexample :
    containsA NXGraph.empty.nodes "A" = false ∧
    containsA NXGraph.empty.nodes "B" = false ∧
    createEdge NXGraph.empty c4Edge =
      (⟨[("A", none), ("B", none)],
        [(("A", "B"), ⟨"e1", "OWNS", [], none, none⟩)], 0⟩, "e1") ∧
    getNode (createEdge NXGraph.empty c4Edge).1 "A" =
      some ⟨"A", "", [], none⟩ :=
  ⟨rfl, rfl, rfl, rfl⟩

/-- Claim C4 (amended): `create_edge` never rejects a request for a
missing endpoint — it always succeeds, silently creating any missing
endpoint as a placeholder node with empty attributes (empty type, empty
properties, no embedding), and stores the edge under its ordered pair of
endpoints. -/
theorem claim_C4_create_edge (g : NXGraph) (e : GraphEdge)
    (hid : e.edgeId ≠ "") :
    ∃ g' : NXGraph,
      createEdge g e = (g', e.edgeId) ∧
      containsA g'.nodes e.sourceId = true ∧
      containsA g'.nodes e.targetId = true ∧
      lookupA g'.edges (e.sourceId, e.targetId) =
        some ⟨e.edgeId, e.edgeType, e.properties, e.validFrom, e.validTo⟩ ∧
      (containsA g.nodes e.sourceId = false →
        getNode g' e.sourceId = some ⟨e.sourceId, "", [], none⟩) ∧
      (containsA g.nodes e.targetId = false →
        getNode g' e.targetId = some ⟨e.targetId, "", [], none⟩) := by
  refine ⟨⟨ensureNode (ensureNode g.nodes e.sourceId) e.targetId,
    upsertA g.edges (e.sourceId, e.targetId)
      ⟨e.edgeId, e.edgeType, e.properties, e.validFrom, e.validTo⟩,
    g.nextId⟩, ?_, ?_, ?_, lookupA_upsertA_self _ _ _, ?_, ?_⟩
  · simp only [createEdge, if_neg hid]
  · exact containsA_ensureNode_mono _ (containsA_ensureNode_self _ _)
  · exact containsA_ensureNode_self _ _
  · intro hsrc
    have hl : lookupA (ensureNode (ensureNode g.nodes e.sourceId) e.targetId)
        e.sourceId = some none :=
      lookupA_ensureNode_preserve _ (lookupA_ensureNode_self_of_not hsrc)
    unfold getNode
    rw [hl]
    rfl
  · intro htgt
    by_cases hst : e.targetId = e.sourceId
    · have hl1 : lookupA (ensureNode g.nodes e.sourceId) e.targetId = some none := by
        rw [hst]
        exact lookupA_ensureNode_self_of_not (hst ▸ htgt)
      have hl : lookupA (ensureNode (ensureNode g.nodes e.sourceId) e.targetId)
          e.targetId = some none := by
        rw [ensureNode_eq_of_contains (by
          rw [hst]
          exact containsA_ensureNode_self _ _)]
        exact hl1
      unfold getNode
      rw [hl]
      rfl
    · have h2 : containsA (ensureNode g.nodes e.sourceId) e.targetId = false :=
        containsA_ensureNode_of_ne _ hst htgt
      have hl : lookupA (ensureNode (ensureNode g.nodes e.sourceId) e.targetId)
          e.targetId = some none :=
        lookupA_ensureNode_self_of_not h2
      unfold getNode
      rw [hl]
      rfl

/-- Witness for the amended C4 on the empty graph. -/
theorem claim_C4_create_edge_witness :
    (c4Edge.edgeId ≠ "") ∧
    (∃ g' : NXGraph,
      createEdge NXGraph.empty c4Edge = (g', c4Edge.edgeId) ∧
      containsA g'.nodes c4Edge.sourceId = true ∧
      containsA g'.nodes c4Edge.targetId = true ∧
      lookupA g'.edges (c4Edge.sourceId, c4Edge.targetId) =
        some ⟨c4Edge.edgeId, c4Edge.edgeType, c4Edge.properties,
          c4Edge.validFrom, c4Edge.validTo⟩ ∧
      (containsA NXGraph.empty.nodes c4Edge.sourceId = false →
        getNode g' c4Edge.sourceId = some ⟨c4Edge.sourceId, "", [], none⟩) ∧
      (containsA NXGraph.empty.nodes c4Edge.targetId = false →
        getNode g' c4Edge.targetId = some ⟨c4Edge.targetId, "", [], none⟩)) :=
  ⟨by decide, claim_C4_create_edge NXGraph.empty c4Edge (by decide)⟩

/-! ## C5: node deletion cascades to incident edges -/

/-- Claim C5: deleting a present node returns `True` and leaves no edge
with that node as source or target — neither in the edge table nor in any
`get_edges` result for any node, direction and type. -/
theorem claim_C5_delete_node_cascade (g : NXGraph) (n : String)
    (h : containsA g.nodes n = true) :
    (deleteNode g n).2 = true ∧
    (∀ p ∈ ((deleteNode g n).1).edges, p.1.1 ≠ n ∧ p.1.2 ≠ n) ∧
    (∀ (m direction : String) (etype : Option String),
      ∀ e ∈ getEdges (deleteNode g n).1 m direction etype,
        e.sourceId ≠ n ∧ e.targetId ≠ n) := by
  have hstep : deleteNode g n =
      (⟨g.nodes.filter (fun p => !(p.1 = n : Bool)),
        g.edges.filter (fun p => !(p.1.1 = n : Bool) && !(p.1.2 = n : Bool)),
        g.nextId⟩, true) := by
    unfold deleteNode
    rw [h]
    rfl
  have hedges : ∀ p ∈ g.edges.filter
      (fun p => !(p.1.1 = n : Bool) && !(p.1.2 = n : Bool)),
      p.1.1 ≠ n ∧ p.1.2 ≠ n := by
    intro p hp
    have hf := List.of_mem_filter hp
    simp only [Bool.and_eq_true, Bool.not_eq_true', decide_eq_false_iff_not] at hf
    exact hf
  rw [hstep]
  refine ⟨rfl, hedges, ?_⟩
  intro m direction etype e he
  simp only [getEdges] at he
  rw [List.mem_append] at he
  rcases he with he | he
  · by_cases hdir : (direction = "out" || direction = "both") = true
    · rw [if_pos hdir] at he
      obtain ⟨p, hp, rfl⟩ := List.mem_map.mp he
      have hmem := List.mem_of_mem_filter hp
      exact hedges p hmem
    · rw [if_neg hdir] at he
      cases he
  · by_cases hdir : (direction = "in" || direction = "both") = true
    · rw [if_pos hdir] at he
      obtain ⟨p, hp, rfl⟩ := List.mem_map.mp he
      have hmem := List.mem_of_mem_filter hp
      exact hedges p hmem
    · rw [if_neg hdir] at he
      cases he



/-- Witness for C5: deleting node `"A"` of the Scenario-B graph. -/
theorem claim_C5_delete_node_cascade_witness :
    (containsA c5Graph.nodes "A" = true) ∧
    ((deleteNode c5Graph "A").2 = true ∧
     (∀ p ∈ ((deleteNode c5Graph "A").1).edges, p.1.1 ≠ "A" ∧ p.1.2 ≠ "A") ∧
     (∀ (m direction : String) (etype : Option String),
       ∀ e ∈ getEdges (deleteNode c5Graph "A").1 m direction etype,
         e.sourceId ≠ "A" ∧ e.targetId ≠ "A")) :=
  ⟨by decide, claim_C5_delete_node_cascade c5Graph "A" (by decide)⟩

/-! ## C10: one edge per ordered endpoint pair -/

/-- Claim C10: creating an edge twice for the same ordered (source, target)
pair overwrites the stored edge attributes (id, type, properties, validity
interval) in place: the pair maps to the second edge's data, the edge
count for the pair is one, and the total number of edges is unchanged by
the second call. -/
theorem claim_C10_edge_overwrite (g : NXGraph) (e1 e2 : GraphEdge)
    (hs : e2.sourceId = e1.sourceId) (ht : e2.targetId = e1.targetId)
    (hnd : (keysA g.edges).Nodup) (hid2 : e2.edgeId ≠ "") :
    lookupA (((createEdge (createEdge g e1).1 e2).1).edges)
        (e2.sourceId, e2.targetId) =
      some ⟨e2.edgeId, e2.edgeType, e2.properties, e2.validFrom, e2.validTo⟩ ∧
    (((createEdge (createEdge g e1).1 e2).1).edges).countP
        (fun p => decide (p.1 = (e2.sourceId, e2.targetId))) = 1 ∧
    (((createEdge (createEdge g e1).1 e2).1).edges).length =
      (((createEdge g e1).1).edges).length := by
  have hg1 : (((createEdge g e1).1).edges) =
      upsertA g.edges (e1.sourceId, e1.targetId)
        ⟨(if e1.edgeId = "" then uuidKey g.nextId else e1.edgeId),
          e1.edgeType, e1.properties, e1.validFrom, e1.validTo⟩ := rfl
  have hg2 : (((createEdge (createEdge g e1).1 e2).1).edges) =
      upsertA (((createEdge g e1).1).edges) (e2.sourceId, e2.targetId)
        ⟨e2.edgeId, e2.edgeType, e2.properties, e2.validFrom, e2.validTo⟩ := by
    simp only [createEdge, if_neg hid2]
  have hnd1 : (keysA (((createEdge g e1).1).edges)).Nodup := by
    rw [hg1]
    exact nodup_keysA_upsertA hnd _ _
  refine ⟨?_, ?_, ?_⟩
  · rw [hg2]
    exact lookupA_upsertA_self _ _ _
  · rw [hg2]
    exact countP_upsertA_self hnd1 _ _
  · rw [hg2]
    apply length_upsertA_of_contains
    rw [hg1, hs, ht]
    exact containsA_upsertA_self _ _ _

/-- Witness for C10: two edges on the same ordered pair of the Scenario-B
graph. -/
theorem claim_C10_edge_overwrite_witness :
    ((⟨"e2", "A", "B", "LIKES", [("w", "2")], none, none⟩ :
        GraphEdge).sourceId = c4Edge.sourceId) ∧
    ((⟨"e2", "A", "B", "LIKES", [("w", "2")], none, none⟩ :
        GraphEdge).targetId = c4Edge.targetId) ∧
    ((keysA NXGraph.empty.edges).Nodup) ∧
    ((⟨"e2", "A", "B", "LIKES", [("w", "2")], none, none⟩ :
        GraphEdge).edgeId ≠ "") ∧
    (lookupA (((createEdge (createEdge NXGraph.empty c4Edge).1
          ⟨"e2", "A", "B", "LIKES", [("w", "2")], none, none⟩).1).edges)
        ("A", "B") =
      some ⟨"e2", "LIKES", [("w", "2")], none, none⟩ ∧
    (((createEdge (createEdge NXGraph.empty c4Edge).1
          ⟨"e2", "A", "B", "LIKES", [("w", "2")], none, none⟩).1).edges).countP
        (fun p => decide (p.1 = ("A", "B"))) = 1 ∧
    (((createEdge (createEdge NXGraph.empty c4Edge).1
          ⟨"e2", "A", "B", "LIKES", [("w", "2")], none, none⟩).1).edges).length =
      (((createEdge NXGraph.empty c4Edge).1).edges).length) :=
  ⟨rfl, rfl, by decide, by decide,
    claim_C10_edge_overwrite NXGraph.empty c4Edge
      ⟨"e2", "A", "B", "LIKES", [("w", "2")], none, none⟩
      rfl rfl (by decide) (by decide)⟩

/-! ## Lemmas about `create_event` and the session log -/

theorem createEvent_events (s : MemStore) (evs : List MemEvent) :
    ((createEvent s evs).1).events = s.events ++ eventsFromCounter s.nextId evs := by
  induction evs generalizing s with
  | nil => simp [createEvent, eventsFromCounter]
  | cons e es ih =>
    by_cases hp : e.content.length > 100
    · simp only [createEvent, createEventStep, if_pos hp, eventsFromCounter]
      rw [ih]
      simp [List.append_assoc, if_pos hp]
    · simp only [createEvent, createEventStep, if_neg hp, eventsFromCounter]
      rw [ih]
      simp [List.append_assoc, if_neg hp]

theorem eventsFromCounter_map (n : Nat) (es : List MemEvent) :
    (eventsFromCounter n es).map toMemEvent = es := by
  induction es generalizing n with
  | nil => rfl
  | cons e es ih =>
    show (⟨e.actorId, e.sessionId, e.role, e.content, e.timestamp, e.metadata⟩ :
        MemEvent) :: (eventsFromCounter _ es).map toMemEvent = e :: es
    rw [ih]

theorem eventsFromCounter_mem (n : Nat) (es : List MemEvent) :
    ∀ x ∈ eventsFromCounter n es, toMemEvent x ∈ es := by
  induction es generalizing n with
  | nil =>
    intro x hx
    cases hx
  | cons e es ih =>
    intro x hx
    rcases List.mem_cons.mp hx with rfl | hx'
    · exact List.mem_cons.mpr (Or.inl rfl)
    · exact List.mem_cons_of_mem _ (ih _ x hx')

theorem eventsFromCounter_filter_self (n : Nat) (es : List MemEvent)
    (actor session : String)
    (hmatch : ∀ e ∈ es, e.actorId = actor ∧ e.sessionId = session) :
    (eventsFromCounter n es).filter
      (fun e => (e.actorId = actor : Bool) && (e.sessionId = session : Bool)) =
      eventsFromCounter n es := by
  apply List.filter_eq_self.mpr
  intro x hx
  have h := hmatch (toMemEvent x) (eventsFromCounter_mem n es x hx)
  simp only [Bool.and_eq_true, decide_eq_true_eq]
  exact h

theorem eventsFromCounter_sorted (n : Nat) (es : List MemEvent)
    (hs : es.Pairwise (fun a b => strLe a.timestamp b.timestamp = true)) :
    (eventsFromCounter n es).Sorted tsLe := by
  induction es generalizing n with
  | nil => exact List.Pairwise.nil
  | cons e es ih =>
    obtain ⟨h1, h2⟩ := List.pairwise_cons.mp hs
    refine List.Pairwise.cons ?_ (ih _ h2)
    intro b hb
    exact h1 (toMemEvent b) (eventsFromCounter_mem _ es b hb)

theorem eventsFromCounter_length (n : Nat) (es : List MemEvent) :
    (eventsFromCounter n es).length = es.length := by
  rw [← List.length_map (eventsFromCounter n es) toMemEvent,
    eventsFromCounter_map]

/-! ## C6: session history order -/

/-- Claim C6 is falsified: two events appended in order whose timestamps
decrease are returned in timestamp order, not append order —
`_get_session_memory` sorts the filtered events by their timestamp
string. -/
theorem claim_C6_counterexample :
    getSessionHistory (createEvent MemStore.empty [c6e1, c6e2]).1 "u" "s" 2 =
      [c6e2, c6e1] ∧ [c6e2, c6e1] ≠ [c6e1, c6e2] := by
  constructor
  · decide
  · decide

/-- Claim C6 (amended): appending K events for one (actor, session) pair —
to a store holding no other events for that pair — with nondecreasing
timestamps, and reading the history back with `limit ≥ K`, returns exactly
those K events in append order; in particular events with identical
timestamps keep insertion order (Python's sort is stable).  Without the
nondecreasing-timestamp assumption the result is timestamp order, not
append order (see the counterexample). -/
theorem claim_C6_session_history (s : MemStore) (actor session : String)
    (evs : List MemEvent) (limit : Nat)
    (hprior : ∀ e ∈ s.events, ¬(e.actorId = actor ∧ e.sessionId = session))
    (hmatch : ∀ e ∈ evs, e.actorId = actor ∧ e.sessionId = session)
    (hsorted : evs.Pairwise (fun a b => strLe a.timestamp b.timestamp = true))
    (hlimit : evs.length ≤ limit) :
    getSessionHistory (createEvent s evs).1 actor session limit = evs := by
  simp only [getSessionHistory]
  rw [createEvent_events, List.filter_append]
  have hf1 : s.events.filter
      (fun e => (e.actorId = actor : Bool) && (e.sessionId = session : Bool)) = [] := by
    rw [List.filter_eq_nil_iff]
    intro e he
    have h := hprior e he
    simp only [Bool.and_eq_true, decide_eq_true_eq]
    exact h
  rw [hf1, List.nil_append,
    eventsFromCounter_filter_self s.nextId evs actor session hmatch,
    List.Sorted.insertionSort_eq (eventsFromCounter_sorted s.nextId evs hsorted)]
  by_cases hl0 : limit = 0
  · rw [if_pos hl0]
    exact eventsFromCounter_map _ _
  · rw [if_neg hl0, eventsFromCounter_length,
      Nat.sub_eq_zero_of_le hlimit, List.drop_zero]
    exact eventsFromCounter_map _ _

/-- Witness for the amended C6: two equal-timestamp events, read back in
append order. -/
theorem claim_C6_session_history_witness :
    (∀ e ∈ MemStore.empty.events, ¬(e.actorId = "u" ∧ e.sessionId = "s")) ∧
    (∀ e ∈ [(⟨"u", "s", "USER", "a", "2024-01-01", []⟩ : MemEvent),
        ⟨"u", "s", "ASSISTANT", "b", "2024-01-01", []⟩],
      e.actorId = "u" ∧ e.sessionId = "s") ∧
    ([(⟨"u", "s", "USER", "a", "2024-01-01", []⟩ : MemEvent),
        ⟨"u", "s", "ASSISTANT", "b", "2024-01-01", []⟩].Pairwise
      (fun a b => strLe a.timestamp b.timestamp = true)) ∧
    ([(⟨"u", "s", "USER", "a", "2024-01-01", []⟩ : MemEvent),
        ⟨"u", "s", "ASSISTANT", "b", "2024-01-01", []⟩].length ≤ 5) ∧
    getSessionHistory
        (createEvent MemStore.empty
          [⟨"u", "s", "USER", "a", "2024-01-01", []⟩,
            ⟨"u", "s", "ASSISTANT", "b", "2024-01-01", []⟩]).1 "u" "s" 5 =
      [⟨"u", "s", "USER", "a", "2024-01-01", []⟩,
        ⟨"u", "s", "ASSISTANT", "b", "2024-01-01", []⟩] :=
  ⟨by decide, by decide, by decide, by decide,
    claim_C6_session_history MemStore.empty "u" "s"
      [⟨"u", "s", "USER", "a", "2024-01-01", []⟩,
        ⟨"u", "s", "ASSISTANT", "b", "2024-01-01", []⟩] 5
      (by decide) (by decide) (by decide) (by decide)⟩

/-! ## C9: promotion of long events to semantic records -/

/-- Claim C9: `create_event` synchronously derives and stores a semantic
`MemoryRecord` for the event's actor if and only if the event's content
length exceeds the 100-character threshold; the derived record carries the
fixed default relevance score `0.5`, the `"semantic"` memory type, and
references its source event through its content, its timestamp, and the
`source`/`session_id` metadata entries (stated for event metadata that
does not itself override those two keys); an event at or below the
threshold stores no record and leaves the record table unchanged.  The
final conjunct shows `create_event` processes a batch sequentially, so the
single-event statement covers every event of a batch. -/
theorem claim_C9_promotion (s : MemStore) (e : MemEvent)
    (hsrc : lookupA e.metadata "source" = none)
    (hsid : lookupA e.metadata "session_id" = none) :
    (100 < e.content.length →
      recordsOf (createEvent s [e]).1 e.actorId =
        recordsOf s e.actorId ++ [promoRecord (s.nextId + 1) e] ∧
      (promoRecord (s.nextId + 1) e).memoryType = "semantic" ∧
      (promoRecord (s.nextId + 1) e).score = 1 / 2 ∧
      (promoRecord (s.nextId + 1) e).content = e.content ∧
      (promoRecord (s.nextId + 1) e).timestamp = e.timestamp ∧
      lookupA (promoRecord (s.nextId + 1) e).metadata "source" = some "event" ∧
      lookupA (promoRecord (s.nextId + 1) e).metadata "session_id" =
        some e.sessionId) ∧
    (e.content.length ≤ 100 → ((createEvent s [e]).1).records = s.records) ∧
    (∀ evs : List MemEvent,
      ((createEvent s (e :: evs)).1) = ((createEvent ((createEvent s [e]).1) evs).1)) := by
  have hone : (createEvent s [e]).1 = (createEventStep s e).1 := by
    simp [createEvent]
  refine ⟨?_, ?_, fun evs => rfl⟩
  · intro hlen
    have hp : e.content.length > 100 := hlen
    refine ⟨?_, rfl, rfl, rfl, rfl, ?_, ?_⟩
    · rw [hone]
      simp only [createEventStep, if_pos hp]
      unfold recordsOf saveRecord
      rw [lookupA_upsertA_self]
      rfl
    · have h1 := lookupA_foldl_upsertA_of_not_mem (fun v : String => v)
        e.metadata [("source", "event"), ("session_id", e.sessionId)] "source"
        ((lookupA_eq_none_iff _ _).mp hsrc)
      exact h1.trans rfl
    · have h1 := lookupA_foldl_upsertA_of_not_mem (fun v : String => v)
        e.metadata [("source", "event"), ("session_id", e.sessionId)]
        "session_id" ((lookupA_eq_none_iff _ _).mp hsid)
      exact h1.trans rfl
  · intro hlen
    have hp : ¬ e.content.length > 100 := by omega
    rw [hone]
    simp only [createEventStep, if_neg hp]


/-- Witness for C9 at a concrete long event (and, for the no-promotion
direction, the threshold-length hypothesis is vacuous). -/
theorem claim_C9_promotion_witness :
    (lookupA c9Event.metadata "source" = none) ∧
    (lookupA c9Event.metadata "session_id" = none) ∧
    ((100 < c9Event.content.length →
      recordsOf (createEvent MemStore.empty [c9Event]).1 c9Event.actorId =
        recordsOf MemStore.empty c9Event.actorId ++
          [promoRecord (MemStore.empty.nextId + 1) c9Event] ∧
      (promoRecord (MemStore.empty.nextId + 1) c9Event).memoryType = "semantic" ∧
      (promoRecord (MemStore.empty.nextId + 1) c9Event).score = 1 / 2 ∧
      (promoRecord (MemStore.empty.nextId + 1) c9Event).content =
        c9Event.content ∧
      (promoRecord (MemStore.empty.nextId + 1) c9Event).timestamp =
        c9Event.timestamp ∧
      lookupA (promoRecord (MemStore.empty.nextId + 1) c9Event).metadata
        "source" = some "event" ∧
      lookupA (promoRecord (MemStore.empty.nextId + 1) c9Event).metadata
        "session_id" = some c9Event.sessionId) ∧
    (c9Event.content.length ≤ 100 →
      ((createEvent MemStore.empty [c9Event]).1).records =
        MemStore.empty.records) ∧
    (∀ evs : List MemEvent,
      ((createEvent MemStore.empty (c9Event :: evs)).1) =
        ((createEvent ((createEvent MemStore.empty [c9Event]).1) evs).1))) :=
  ⟨rfl, rfl, claim_C9_promotion MemStore.empty c9Event rfl rfl⟩
